import Mathlib

/-!
Shallow embedding of the broadway-shows enrichment and deduplication core
(`src/show_manager.py`, `src/database.py`).

Python text is modelled as a list of Unicode code points (`PyStr`); the
character classes of `str.lower`, `str.strip` and the regexes `[^\w\s]`,
`\s+` are modelled over ASCII, which covers every identifier the claims
quantify over.  Machine behaviour that the claims do not touch (SQLite
connection plumbing, prompt text, timestamps' clock) is threaded as
explicit parameters.
-/

/-- Python strings as lists of code points. -/
abbrev PyStr := List Nat

/-- Encode a Lean string literal as a `PyStr` for concrete test inputs. -/
def enc (s : String) : PyStr := s.data.map Char.toNat

/-- Python `str.isspace` / regex `\s` over ASCII: TAB..CR and space. -/
def pyWs (c : Nat) : Bool := (9 ≤ c ∧ c ≤ 13) ∨ c = 32

/-- JSON whitespace (what `json.loads` skips): space, TAB, LF, CR. -/
def jWs (c : Nat) : Bool := c = 32 ∨ c = 9 ∨ c = 10 ∨ c = 13

/-- Regex `\w` over ASCII: letters, digits, underscore. -/
def wordc (c : Nat) : Bool :=
  (48 ≤ c ∧ c ≤ 57) ∨ (65 ≤ c ∧ c ≤ 90) ∨ (97 ≤ c ∧ c ≤ 122) ∨ c = 95

/-- Python `str.lower` on one ASCII code point. -/
def pyToLower (c : Nat) : Nat := if 65 ≤ c ∧ c ≤ 90 then c + 32 else c

/-- Drop leading Python whitespace (left half of `str.strip`). -/
def lstripWs (s : PyStr) : PyStr := s.dropWhile pyWs

/-- Drop trailing Python whitespace (right half of `str.strip`). -/
def rstripWs : PyStr → PyStr
  | [] => []
  | c :: r =>
    let r' := rstripWs r
    if r' = [] ∧ pyWs c then [] else c :: r'

/-- Python `str.strip()`. -/
def pystrip (s : PyStr) : PyStr := lstripWs (rstripWs s)

/-- `re.sub(r'[^\w\s]', '', s)`: delete every character that is neither a
word character nor whitespace. -/
def depunct (s : PyStr) : PyStr := s.filter (fun c => wordc c || pyWs c)

/-- Worker for `re.sub(r'\s+', ' ', s)`; the flag records whether we are
inside a whitespace run whose single replacement space was already
emitted. -/
def collapseGo (b : Bool) : PyStr → PyStr
  | [] => []
  | c :: r =>
    if pyWs c then
      if b then collapseGo true r else 32 :: collapseGo true r
    else c :: collapseGo false r

/-- `re.sub(r'\s+', ' ', s)`: replace each maximal whitespace run by one
space. -/
def collapseWs (s : PyStr) : PyStr := collapseGo false s

/-- Invariant of `collapseGo` output (used only in proofs): every
whitespace character is the plain space 32, no two whitespace characters
are adjacent, and when the flag is set the text does not begin with
whitespace. -/
def wsNormal : Bool → PyStr → Bool
  | _, [] => true
  | b, c :: r => (if pyWs c then !b && c == 32 else true) && wsNormal (pyWs c) r

/-- `ShowManager.normalize_string`: lowercase, strip, remove punctuation,
collapse whitespace runs — in exactly the source's order. -/
def normalize_string (s : PyStr) : PyStr :=
  collapseWs (depunct (pystrip (s.map pyToLower)))

example : normalize_string (enc "  Wicked!made ") = enc "wickedmade" := by decide
example : normalize_string (enc "a .") = enc "a " := by decide
example : normalize_string (enc "a ") = enc "a" := by decide

/-!
## JSON values and a model of `json.loads` / `json.dumps`

The model is restricted to what the repository can produce: objects,
arrays, strings, integers, booleans and null (the enrichment prompts only
request such shapes; fractional numbers would surface as parse failures
in the model).  Duplicate keys in a parsed object keep the last binding,
as Python dicts do.
-/

/-- A Python/JSON value. -/
inductive JVal where
  | null : JVal
  | bool : Bool → JVal
  | int : Int → JVal
  | str : PyStr → JVal
  | arr : List JVal → JVal
  | obj : List (PyStr × JVal) → JVal

/-- Structural equality of `JVal`s, modelling Python `==` on the JSON
shapes the repository handles. -/
def jvalEq : JVal → JVal → Bool
  | .null, .null => true
  | .bool a, .bool b => a == b
  | .int a, .int b => a == b
  | .str a, .str b => a == b
  | .arr [], .arr [] => true
  | .arr (x :: xs), .arr (y :: ys) => jvalEq x y && jvalEq (.arr xs) (.arr ys)
  | .obj [], .obj [] => true
  | .obj ((k, x) :: xs), .obj ((l, y) :: ys) =>
    k == l && jvalEq x y && jvalEq (.obj xs) (.obj ys)
  | _, _ => false

/-- A Python dict with `PyStr` keys, in insertion order. -/
abbrev Dict := List (PyStr × JVal)

/-- Python `d.get(k)`: value of the first (only) binding of `k`. -/
def dget (d : Dict) (k : PyStr) : Option JVal :=
  (d.find? (fun p => p.1 == k)).map Prod.snd

/-- Whether the dict has a binding for `k`. -/
def hasK (d : Dict) (k : PyStr) : Bool := d.any (fun p => p.1 == k)

/-- Python `d[k] = v`: overwrite in place if present, else append. -/
def dset (d : Dict) (k : PyStr) (v : JVal) : Dict :=
  if hasK d k then d.map (fun p => if p.1 == k then (k, v) else p)
  else d ++ [(k, v)]

/-- The keys of a dict, in order. -/
def dkeys (d : Dict) : List PyStr := d.map Prod.fst

/-- Python truthiness of a `JVal`. -/
def truthy : JVal → Bool
  | .null => false
  | .bool b => b
  | .int n => n != 0
  | .str s => !s.isEmpty
  | .arr l => !l.isEmpty
  | .obj l => !l.isEmpty

/-- Value of one hex digit, if any. -/
def hexVal (c : Nat) : Option Nat :=
  if 48 ≤ c ∧ c ≤ 57 then some (c - 48)
  else if 65 ≤ c ∧ c ≤ 70 then some (c - 55)
  else if 97 ≤ c ∧ c ≤ 102 then some (c - 87)
  else none

/-- Parse the body of a JSON string after the opening quote, handling the
escape sequences `json.loads` accepts; fuel bounds recursion. -/
def parseStringBody : Nat → PyStr → Option (PyStr × PyStr)
  | 0, _ => none
  | _ + 1, [] => none
  | f + 1, c :: r =>
    if c = 34 then some ([], r)
    else if c = 92 then
      match r with
      | [] => none
      | e :: r2 =>
        if e = 34 ∨ e = 92 ∨ e = 47 then
          (parseStringBody f r2).map (fun p => (e :: p.1, p.2))
        else if e = 98 then (parseStringBody f r2).map (fun p => (8 :: p.1, p.2))
        else if e = 102 then (parseStringBody f r2).map (fun p => (12 :: p.1, p.2))
        else if e = 110 then (parseStringBody f r2).map (fun p => (10 :: p.1, p.2))
        else if e = 114 then (parseStringBody f r2).map (fun p => (13 :: p.1, p.2))
        else if e = 116 then (parseStringBody f r2).map (fun p => (9 :: p.1, p.2))
        else if e = 117 then
          match r2 with
          | h1 :: h2 :: h3 :: h4 :: r3 =>
            match hexVal h1, hexVal h2, hexVal h3, hexVal h4 with
            | some a, some b, some c', some d =>
              (parseStringBody f r3).map
                (fun p => ((a * 4096 + b * 256 + c' * 16 + d) :: p.1, p.2))
            | _, _, _, _ => none
          | _ => none
        else none
    else if c < 32 then none
    else (parseStringBody f r).map (fun p => (c :: p.1, p.2))

/-- Split a leading digit run. -/
def spanDigits (s : PyStr) : PyStr × PyStr :=
  (s.takeWhile (fun c => 48 ≤ c ∧ c ≤ 57), s.dropWhile (fun c => 48 ≤ c ∧ c ≤ 57))

/-- Natural number denoted by a digit run. -/
def natOfDigits (ds : PyStr) : Nat := ds.foldl (fun a c => a * 10 + (c - 48)) 0

/-- Parse a JSON integer literal (the model treats fractional/exponent
forms as invalid; the repository's prompts only yield integers). -/
def parseNumber (s : PyStr) : Option (JVal × PyStr) :=
  let neg : Bool := s.head? = some 45
  let s1 := if neg then s.tail else s
  match spanDigits s1 with
  | ([], _) => none
  | (ds, rest) =>
    if rest.head? = some 46 ∨ rest.head? = some 101 ∨ rest.head? = some 69 then none
    else
      let n : Int := Int.ofNat (natOfDigits ds)
      some (.int (if neg then -n else n), rest)

mutual

/-- Parse one JSON value; fuel bounds recursion depth. -/
def parseVal : Nat → PyStr → Option (JVal × PyStr)
  | 0, _ => none
  | _ + 1, [] => none
  | f + 1, c :: r =>
    if c = 34 then (parseStringBody f r).map (fun p => (.str p.1, p.2))
    else if c = 91 then parseArrFirst f (r.dropWhile jWs)
    else if c = 123 then parseObjFirst f (r.dropWhile jWs)
    else if c = 116 then
      if r.take 3 = [114, 117, 101] then some (.bool true, r.drop 3) else none
    else if c = 102 then
      if r.take 4 = [97, 108, 115, 101] then some (.bool false, r.drop 4) else none
    else if c = 110 then
      if r.take 3 = [117, 108, 108] then some (.null, r.drop 3) else none
    else if c = 45 ∨ (48 ≤ c ∧ c ≤ 57) then parseNumber (c :: r)
    else none

/-- Parse an array body after `[` and whitespace. -/
def parseArrFirst : Nat → PyStr → Option (JVal × PyStr)
  | 0, _ => none
  | f + 1, s =>
    match s with
    | 93 :: r => some (.arr [], r)
    | s =>
      (parseVal f s).bind fun p =>
        (parseArrRest f (p.2.dropWhile jWs)).map fun q => (.arr (p.1 :: q.1), q.2)

/-- Parse `, value`* `]` after the first array element. -/
def parseArrRest : Nat → PyStr → Option (List JVal × PyStr)
  | 0, _ => none
  | f + 1, s =>
    match s with
    | 93 :: r => some ([], r)
    | 44 :: r =>
      (parseVal f (r.dropWhile jWs)).bind fun p =>
        (parseArrRest f (p.2.dropWhile jWs)).map fun q => (p.1 :: q.1, q.2)
    | _ => none

/-- Parse an object body after `LBRACE` and whitespace. -/
def parseObjFirst : Nat → PyStr → Option (JVal × PyStr)
  | 0, _ => none
  | f + 1, s =>
    match s with
    | 125 :: r => some (.obj [], r)
    | s =>
      (parseMember f s).bind fun p =>
        (parseObjRest f (p.2.dropWhile jWs)).map fun q =>
          (.obj (((p.1 :: q.1).foldl (fun d kv => dset d kv.1 kv.2) [])), q.2)

/-- Parse one `"key": value` member. -/
def parseMember : Nat → PyStr → Option ((PyStr × JVal) × PyStr)
  | 0, _ => none
  | f + 1, s =>
    match s with
    | 34 :: r =>
      (parseStringBody f r).bind fun k =>
        match k.2.dropWhile jWs with
        | 58 :: r2 =>
          (parseVal f (r2.dropWhile jWs)).map fun v => ((k.1, v.1), v.2)
        | _ => none
    | _ => none

/-- Parse `, member`* `RBRACE` after the first object member. -/
def parseObjRest : Nat → PyStr → Option (List (PyStr × JVal) × PyStr)
  | 0, _ => none
  | f + 1, s =>
    match s with
    | 125 :: r => some ([], r)
    | 44 :: r =>
      (parseMember f (r.dropWhile jWs)).bind fun p =>
        (parseObjRest f (p.2.dropWhile jWs)).map fun q => (p.1 :: q.1, q.2)
    | _ => none

end

/-- Model of `json.loads`: skip surrounding JSON whitespace, parse one
value, and fail on leftover input. -/
def jsonLoads (s : PyStr) : Option JVal :=
  match parseVal (2 * s.length + 8) (s.dropWhile jWs) with
  | some (v, rest) => if rest.dropWhile jWs = [] then some v else none
  | none => none

example : jsonLoads (enc "[1, 2]") = some (.arr [.int 1, .int 2]) := rfl
example : jsonLoads (enc " \"a\\nb\" ") = some (.str (enc "a\nb")) := rfl
example : jsonLoads (enc "not json") = none := rfl
example : jsonLoads (enc "[\"```\"]") = some (.arr [.str (enc "```")]) := rfl
example : jsonLoads [123, 34, 97, 34, 58, 49, 125] = some (.obj [(enc "a", .int 1)]) := rfl

/-- One hex digit character. -/
def hexDig (n : Nat) : Nat := if n < 10 then 48 + n else 87 + n

/-- Escape one code point inside a dumped JSON string the way
`json.dumps` (with its default `ensure_ascii=True`) does. -/
def escChar (c : Nat) : PyStr :=
  if c = 34 then [92, 34]
  else if c = 92 then [92, 92]
  else if c = 10 then [92, 110]
  else if c = 9 then [92, 116]
  else if c = 13 then [92, 114]
  else if c = 8 then [92, 98]
  else if c = 12 then [92, 102]
  else if c < 32 ∨ 126 < c then
    [92, 117, hexDig (c / 4096 % 16), hexDig (c / 256 % 16),
     hexDig (c / 16 % 16), hexDig (c % 16)]
  else [c]

/-- Dump a JSON string literal. -/
def dumpString (s : PyStr) : PyStr := 34 :: (s.map escChar).flatten ++ [34]

/-- Decimal digits of a natural number; fuel-bounded worker. -/
def natDigitsGo : Nat → Nat → PyStr
  | 0, _ => []
  | f + 1, n => if n < 10 then [48 + n] else natDigitsGo f (n / 10) ++ [48 + n % 10]

/-- Decimal representation of an integer. -/
def intDigits (n : Int) : PyStr :=
  if n < 0 then 45 :: natDigitsGo (n.natAbs + 1) n.natAbs
  else natDigitsGo (n.natAbs + 1) n.natAbs

mutual

/-- Model of `json.dumps` with Python's default separators. -/
def jsonDumps : JVal → PyStr
  | .null => enc "null"
  | .bool true => enc "true"
  | .bool false => enc "false"
  | .int n => intDigits n
  | .str s => dumpString s
  | .arr xs => 91 :: List.intercalate [44, 32] (dumpList xs) ++ [93]
  | .obj ps => 123 :: List.intercalate [44, 32] (dumpObj ps) ++ [125]

/-- Dumped elements of an array. -/
def dumpList : List JVal → List PyStr
  | [] => []
  | v :: vs => jsonDumps v :: dumpList vs

/-- Dumped members of an object. -/
def dumpObj : List (PyStr × JVal) → List PyStr
  | [] => []
  | (k, v) :: ps => (dumpString k ++ [58, 32] ++ jsonDumps v) :: dumpObj ps

end

example : jsonDumps (.arr [.str (enc "a"), .int 3]) = enc "[\"a\", 3]" := rfl

/-!
## The Record Store (`src/database.py`)

`Database` is modelled as the list of rows of the `shows` table plus the
next `AUTOINCREMENT` id.  A row is a `Dict`; a missing key plays the role
of an SQL `NULL` (all reads in the source go through `.get` or through
columns that are always populated).  `get_all_shows` yields the store's
natural iteration order, which the model takes to be the row list itself.
Timestamps are threaded as an explicit `now` argument.
-/

/-- Key constants for the columns the core logic touches. -/
def kId : PyStr := enc "id"
def kShowName : PyStr := enc "show_name"
def kTheater : PyStr := enc "theater_name"
def kDate : PyStr := enc "date_attended"
def kDateAdded : PyStr := enc "date_added"
def kLastUpdated : PyStr := enc "last_updated"
def kPlot : PyStr := enc "plot_summary"
def kUserCats : PyStr := enc "user_categories"

/-- The fixed `enrichable_fields` list from `ShowManager.enrich_show`. -/
def enrichable_fields : List PyStr :=
  [enc "lead_cast", enc "director", enc "choreographer", enc "composer",
   enc "lyricist", enc "book_writer", enc "opening_date", enc "closing_date",
   enc "is_revival", enc "original_production_year", enc "production_type",
   enc "plot_summary", enc "genre", enc "tony_awards", enc "other_awards",
   enc "musical_numbers", enc "themes", enc "running_time",
   enc "intermission_count", enc "llm_categories"]

/-- The `json_fields` list shared by `Database.add_show`,
`Database.update_show` and `Database._row_to_dict`. -/
def json_fields : List PyStr :=
  [enc "lead_cast", enc "tony_awards", enc "other_awards",
   enc "musical_numbers", enc "themes", enc "llm_categories",
   enc "user_categories"]

/-- `json.dumps` applied to list-valued values of the serialised fields
(`if field in data and isinstance(data[field], list)`). -/
def serializeField (k : PyStr) (v : JVal) : JVal :=
  if json_fields.contains k then
    match v with
    | .arr xs => .str (jsonDumps (.arr xs))
    | _ => v
  else v

/-- Serialise every binding of a dict before it is written to the store. -/
def serializeDict (d : Dict) : Dict :=
  d.map (fun kv => (kv.1, serializeField kv.1 kv.2))

/-- `Database._row_to_dict`: parse the JSON-serialised fields back into
native sequences; a decode failure degrades to an empty list.  (In the
store these fields only ever hold strings or NULL, so the model leaves a
non-string value untouched.) -/
def rowToDict (row : Dict) : Dict :=
  json_fields.foldl
    (fun r f =>
      match dget r f with
      | some (.str s) =>
        if s.isEmpty then r
        else dset r f (match jsonLoads s with | some j => j | none => .arr [])
      | _ => r)
    row

/-- The `shows` table plus its `AUTOINCREMENT` counter. -/
structure DBS where
  rows : List Dict
  nextId : Nat

/-- Row predicate for `WHERE id = ?`. -/
def idMatches (id : Nat) (row : Dict) : Bool :=
  match dget row kId with
  | some (.int i) => i == Int.ofNat id
  | _ => false

/-- Raw row lookup by id. -/
def getShowRaw (db : DBS) (id : Nat) : Option Dict :=
  db.rows.find? (idMatches id)

/-- `Database.get_show`: lookup plus `_row_to_dict`. -/
def db_get_show (db : DBS) (id : Nat) : Option Dict :=
  (getShowRaw db id).map rowToDict

/-- `Database.add_show`: stamp `date_added` and `last_updated`, serialise
the list-valued fields, insert with a fresh id. -/
def db_add_show (db : DBS) (show_data : Dict) (now : PyStr) : DBS × Nat :=
  let d1 := dset (dset show_data kDateAdded (.str now)) kLastUpdated (.str now)
  let row := dset (serializeDict d1) kId (.int (Int.ofNat db.nextId))
  (⟨db.rows ++ [row], db.nextId + 1⟩, db.nextId)

/-- Apply a set of column updates to one row, in order. -/
def applyUpdates (row : Dict) (us : Dict) : Dict :=
  us.foldl (fun r kv => dset r kv.1 kv.2) row

/-- The column values `update_show` actually writes: the caller's dict
with `last_updated` stamped and list values serialised. -/
def storedUpdates (updates : Dict) (now : PyStr) : Dict :=
  serializeDict (dset updates kLastUpdated (.str now))

/-- `Database.update_show`: stamp `last_updated`, serialise list values,
then `UPDATE shows SET ... WHERE id = ?` — a statement that silently
affects zero rows when the id does not exist. -/
def db_update_show (db : DBS) (id : Nat) (updates : Dict) (now : PyStr) : DBS :=
  ⟨db.rows.map (fun row =>
      if idMatches id row then applyUpdates row (storedUpdates updates now) else row),
   db.nextId⟩

/-- `Database.get_all_shows` (via `search_shows({})`): every row through
`_row_to_dict`, in the store's natural iteration order. -/
def allShows (db : DBS) : List Dict := db.rows.map rowToDict

/-!
## The Show Manager (`src/show_manager.py`)

The LLM backend is abstracted to the text (or failure) each call site's
`try` block receives; the three provider-boundary methods are functions
of that outcome.  `EnrichEnv` bundles the provider outcomes with the two
configuration values the core reads (`settings.user_categories` and the
effective `settings.auto_enrich` default).  `enrich_show` additionally
returns the list of provider calls it issued so that call-count claims
can be stated.
-/

/-- The markdown code-fence marker. -/
def fence : PyStr := enc "```"

/-- Worker for Python `str.split(sep)` with a non-empty separator:
leftmost non-overlapping occurrences, accumulating the current segment
reversed; fuel bounds recursion and is never exhausted when it starts at
`length + 1`. -/
def pysplitGo (sep : PyStr) : Nat → PyStr → PyStr → List PyStr
  | 0, acc, s => [acc.reverse ++ s]
  | f + 1, acc, s =>
    if sep.isPrefixOf s then acc.reverse :: pysplitGo sep f [] (s.drop sep.length)
    else
      match s with
      | [] => [acc.reverse]
      | c :: r => pysplitGo sep f (c :: acc) r

example : pysplitGo fence 30 [] (enc "```json太```") =
    [[], 106 :: 115 :: 111 :: 110 :: [22826], []] := by decide

/-- The fence/tag-stripping block shared verbatim by the three call
sites (`content.split`/`startswith("json")`/`strip`). -/
def cleanContent (content : PyStr) : PyStr :=
  if fence.isPrefixOf content then
    let c1 := (pysplitGo fence (content.length + 1) [] content).getD 1 []
    let c2 := if (enc "json").isPrefixOf c1 then c1.drop 4 else c1
    pystrip c2
  else content

/-- The Response Parser: the `content.strip()` each call site performs,
the fence cleanup, then `json.loads`; `none` plays `MalformedResponse`. -/
def parseResponse (raw : PyStr) : Option JVal :=
  jsonLoads (cleanContent (pystrip raw))

/-- Outcome of one provider round trip: the returned text, or any
transport/backend error raised inside the `try` block. -/
abbrev ProviderResp := Except Unit PyStr

/-- Parse a provider outcome; `none` for provider errors and for
`json.loads` failures alike (both land in the same `except`). -/
def providerJson (resp : ProviderResp) : Option JVal :=
  match resp with
  | .error _ => none
  | .ok text => parseResponse text

/-- `ShowManager.extract_shows_from_image` after the file read: any
caught error degrades to `[]`. -/
def extract_shows_from_image (resp : ProviderResp) : JVal :=
  match providerJson resp with
  | some v => v
  | none => .arr []

/-- `ShowManager._enrich_show_info`: any caught error degrades to an
empty mapping. -/
def enrich_show_info (resp : ProviderResp) : JVal :=
  match providerJson resp with
  | some v => v
  | none => .obj []

/-- `ShowManager._match_user_categories`: any caught error degrades to
`[]`. -/
def match_user_categories (resp : ProviderResp) : JVal :=
  match providerJson resp with
  | some v => v
  | none => .arr []

/-- Provider outcomes and configuration visible to the manager. -/
structure EnrichEnv where
  enrichResp : ProviderResp
  catResp : ProviderResp
  userCategories : List PyStr
  autoEnrichDefault : Bool

/-- One provider call, as issued by `enrich_show`: `enrichEntity none`
is the fetch-everything request (`missing_fields=None`). -/
inductive PCall where
  | enrichEntity : Option (List PyStr) → PCall
  | matchCategories : List PyStr → PCall
deriving DecidableEq

/-- Whether a call is an `enrichEntity` request. -/
def isEnrichCall : PCall → Bool
  | .enrichEntity _ => true
  | .matchCategories _ => false

/-- The missing-field test from `enrich_show`: `None`, `''` or `[]`
(a missing key reads as `None` through `.get`). -/
def isMissing : Option JVal → Bool
  | none => true
  | some .null => true
  | some (.str s) => s.isEmpty
  | some (.arr l) => l.isEmpty
  | some _ => false

/-- The computed `missing_fields` list, in declaration order. -/
def missingFields (shw : Dict) : List PyStr :=
  enrichable_fields.filter (fun f => isMissing (dget shw f))

/-- Python `missing_fields or enrichable_fields`. -/
def mfOr : Option (List PyStr) → List PyStr
  | none => enrichable_fields
  | some [] => enrichable_fields
  | some l => l

/-- The `missing_fields` value `enrich_show` carries: `None` when
forcing, else the computed missing list. -/
def enrichMf (force : Bool) (shw : Dict) : Option (List PyStr) :=
  if force then none else some (missingFields shw)

/-- The pending update set: every response field accepted by
`if force or field in (missing_fields or enrichable_fields)`. -/
def enrichUpdates (items : List (PyStr × JVal)) (force : Bool)
    (mf : Option (List PyStr)) : Dict :=
  items.foldl
    (fun u kv => if force || (mfOr mf).contains kv.1 then dset u kv.1 kv.2 else u)
    []

/-- Python `a or b` for the `updates.get(...) or show.get(...)` chain. -/
def pyOrOpt (a b : Option JVal) : Option JVal :=
  match a with
  | some v => if truthy v then some v else b
  | none => b

/-- Truthiness of an optional value (`None` is falsy). -/
def truthyO : Option JVal → Bool
  | some v => truthy v
  | none => false

/-- `ShowManager.enrich_show`.  The first component is the new store and
the value `return self.db.get_show(show_id)` yields (or the `ValueError`
for an unknown id / the `AttributeError` from `.items()` on a non-dict
response, both modelled as `Except.error`); the second component lists
the provider calls that were issued. -/
def enrich_show (db : DBS) (env : EnrichEnv) (show_id : Nat) (force : Bool)
    (now : PyStr) : Except Unit (DBS × Option Dict) × List PCall :=
  match db_get_show db show_id with
  | none => (.error (), [])
  | some shw =>
    if force = false ∧ missingFields shw = [] then (.ok (db, some shw), [])
    else
      let mf : Option (List PyStr) := enrichMf force shw
      match enrich_show_info env.enrichResp with
      | .obj items =>
        let updates := enrichUpdates items force mf
        let plot := pyOrOpt (dget updates kPlot) (dget shw kPlot)
        if truthyO plot ∧ env.userCategories ≠ [] then
          let updates2 := dset updates kUserCats (match_user_categories env.catResp)
          let db2 := if updates2.isEmpty then db else db_update_show db show_id updates2 now
          (.ok (db2, db_get_show db2 show_id),
           [.enrichEntity mf, .matchCategories env.userCategories])
        else
          let db2 := if updates.isEmpty then db else db_update_show db show_id updates now
          (.ok (db2, db_get_show db2 show_id), [.enrichEntity mf])
      | _ => (.error (), [.enrichEntity mf])

/-- String field access (`show['show_name']` and friends; the claims'
theorems only apply this where the field does hold a string). -/
def getS (d : Dict) (k : PyStr) : PyStr :=
  match dget d k with
  | some (.str s) => s
  | _ => []

/-- Integer field access (`duplicate['id']`). -/
def getI (d : Dict) (k : PyStr) : Int :=
  match dget d k with
  | some (.int i) => i
  | _ => 0

/-- The per-candidate test of `find_duplicate`'s loop: normalized
name+theater match and, when a truthy `date_attended` was passed, exact
equality with the stored date (`show.get('date_attended') ==
date_attended`). -/
def dupPred (show_name theater_name : PyStr) (date_attended : Option JVal)
    (shw : Dict) : Bool :=
  normalize_string (getS shw kShowName) == normalize_string show_name &&
  normalize_string (getS shw kTheater) == normalize_string theater_name &&
  (match date_attended with
   | some v => if truthy v then jvalEq ((dget shw kDate).getD .null) v else true
   | none => true)

/-- `ShowManager.find_duplicate`: scan every stored show; on a
normalized name+theater match, a truthy `date_attended` argument must
also equal the stored value exactly, while a falsy one matches
unconditionally. -/
def find_duplicate (shows : List Dict) (show_name theater_name : PyStr)
    (date_attended : Option JVal) : Option Dict :=
  shows.find? (dupPred show_name theater_name date_attended)

/-- `ShowManager.add_show`: duplicate check, insert, then best-effort
auto-enrichment whose exceptions are caught and only warned about. -/
def add_show (db : DBS) (env : EnrichEnv) (show_data : Dict)
    (auto_enrich : Option Bool) (now : PyStr) : DBS × Int × PyStr :=
  match find_duplicate (allShows db) (getS show_data kShowName)
      (getS show_data kTheater) (dget show_data kDate) with
  | some dup => (db, getI dup kId, enc "duplicate")
  | none =>
    let p := db_add_show db show_data now
    let should := auto_enrich.getD env.autoEnrichDefault
    let db2 :=
      if should then
        match (enrich_show p.1 env p.2 false now).1 with
        | .ok q => q.1
        | .error _ => p.1
      else p.1
    (db2, Int.ofNat p.2, enc "added")

/-!
## Specification-side predicates and concrete sample data
-/

/-- The spec's name+theater duplicate condition: both normalized
identifiers agree. -/
def nameMatches (sn tn : PyStr) (shw : Dict) : Prop :=
  normalize_string (getS shw kShowName) = normalize_string sn ∧
  normalize_string (getS shw kTheater) = normalize_string tn

/-- The spec's duplicate condition including the date rule: names match
and, whenever a truthy date was supplied, the stored `date_attended`
equals it under Python `==`. -/
def dupMatches (sn tn : PyStr) (da : Option JVal) (shw : Dict) : Prop :=
  nameMatches sn tn shw ∧
  ∀ v, da = some v → truthy v = true → jvalEq ((dget shw kDate).getD .null) v = true

/-- A JSON payload wrapped in a tagged markdown fence. -/
def wrapJson (t : PyStr) : PyStr := fence ++ enc "json" ++ [10] ++ t ++ [10] ++ fence

/-- A JSON payload wrapped in an untagged markdown fence. -/
def wrapPlain (t : PyStr) : PyStr := fence ++ [10] ++ t ++ [10] ++ fence

/-- A stored show with a recorded attendance date, used as concrete
store content. -/
def wickedRow : Dict :=
  [(kId, .int 1), (kShowName, .str (enc "Wicked")),
   (kTheater, .str (enc "Gershwin Theatre")),
   (kDate, .str (enc "2023-05-01"))]

/-- A stored show with every enrichable field except `plot_summary`
populated. -/
def catsRowNoPlot : Dict :=
  [(kId, .int 3), (kShowName, .str (enc "Cats")),
   (kTheater, .str (enc "Winter Garden")),
   (enc "lead_cast", .str (enc "[\"g\"]")),
   (enc "director", .str (enc "T")),
   (enc "choreographer", .str (enc "G")),
   (enc "composer", .str (enc "W")),
   (enc "lyricist", .str (enc "E")),
   (enc "book_writer", .str (enc "E")),
   (enc "opening_date", .str (enc "1982-10-07")),
   (enc "closing_date", .str (enc "2000-09-10")),
   (enc "is_revival", .bool true),
   (enc "original_production_year", .int 1982),
   (enc "production_type", .str (enc "Broadway")),
   (enc "genre", .str (enc "Musical")),
   (enc "tony_awards", .str (enc "[\"best\"]")),
   (enc "other_awards", .str (enc "[\"x\"]")),
   (enc "musical_numbers", .str (enc "[\"Memory\"]")),
   (enc "themes", .str (enc "[\"cats\"]")),
   (enc "running_time", .int 160),
   (enc "intermission_count", .int 1),
   (enc "llm_categories", .str (enc "[\"m\"]"))]

/-- The same show with `plot_summary` populated as well, so that no
enrichable field is missing. -/
def catsRowFull : Dict := catsRowNoPlot ++ [(kPlot, .str (enc "cats sing"))]

/-!
## Dictionary lemmas
-/

theorem dget_cons (p : PyStr × JVal) (d : Dict) (k : PyStr) :
    dget (p :: d) k = if p.1 == k then some p.2 else dget d k := by
  simp only [dget, List.find?_cons]
  cases h : (p.1 == k) <;> simp [h]

theorem dget_nil (k : PyStr) : dget [] k = none := rfl

theorem dget_append (d e : Dict) (k : PyStr) :
    dget (d ++ e) k = (dget d k).orElse (fun _ => dget e k) := by
  induction d with
  | nil => simp [dget_nil]
  | cons p d ih =>
    rw [List.cons_append, dget_cons, dget_cons]
    cases h : (p.1 == k) <;> simp [h, ih]

theorem hasK_false_iff (d : Dict) (k : PyStr) :
    hasK d k = false ↔ dget d k = none := by
  induction d with
  | nil => simp [hasK, dget_nil]
  | cons p d ih =>
    rw [dget_cons]
    cases h : (p.1 == k)
    · simpa [hasK, h] using ih
    · simp [hasK, h]

theorem dget_map_set (d : Dict) (k : PyStr) (v : JVal) (hk : hasK d k = true) :
    dget (d.map (fun p => if p.1 == k then (k, v) else p)) k = some v := by
  induction d with
  | nil => simp [hasK] at hk
  | cons p d ih =>
    rw [List.map_cons]
    by_cases h : (p.1 == k) = true
    · rw [if_pos h, dget_cons]; simp
    · rw [if_neg h, dget_cons, if_neg (by simpa using h)]
      simp only [hasK, List.any_cons, Bool.or_eq_true] at hk
      rcases hk with hk | hk
      · exact absurd hk h
      · exact ih hk

theorem dget_dset_self (d : Dict) (k : PyStr) (v : JVal) :
    dget (dset d k v) k = some v := by
  by_cases hk : hasK d k = true
  · rw [dset, if_pos hk]
    exact dget_map_set d k v hk
  · rw [dset, if_neg hk]
    rw [dget_append, (hasK_false_iff d k).mp (by simpa using hk)]
    simp [dget_cons]

theorem dget_map_set_ne (d : Dict) (k k' : PyStr) (v : JVal) (h : k' ≠ k) :
    dget (d.map (fun p => if p.1 == k then (k, v) else p)) k' = dget d k' := by
  induction d with
  | nil => rfl
  | cons p d ih =>
    by_cases hp : (p.1 == k) = true
    · have hpk : p.1 = k := beq_iff_eq.mp hp
      have h1 : (k == k') = false := by simpa using fun hkk => h hkk.symm
      have h2 : (p.1 == k') = false := by rw [hpk]; exact h1
      rw [List.map_cons, if_pos hp, dget_cons, dget_cons,
        if_neg (by simp [h1]), if_neg (by simp [h2])]
      exact ih
    · rw [List.map_cons, if_neg hp, dget_cons, dget_cons]
      cases hq : (p.1 == k')
      · rw [if_neg (by simp [hq]), if_neg (by simp [hq])]; exact ih
      · simp

theorem dget_dset_ne (d : Dict) (k k' : PyStr) (v : JVal) (h : k' ≠ k) :
    dget (dset d k v) k' = dget d k' := by
  by_cases hk : hasK d k = true
  · rw [dset, if_pos hk]
    exact dget_map_set_ne d k k' v h
  · rw [dset, if_neg hk, dget_append]
    cases hq : dget d k' with
    | some w => simp [hq]
    | none =>
      have h1 : (k == k') = false := by simpa using fun hkk => h hkk.symm
      simp [hq, dget_cons, h1, dget_nil]

theorem hasK_iff_mem_dkeys (d : Dict) (k : PyStr) :
    hasK d k = true ↔ k ∈ dkeys d := by
  constructor
  · intro h
    rcases List.any_eq_true.mp h with ⟨p, hp, he⟩
    exact (beq_iff_eq.mp he) ▸ List.mem_map_of_mem Prod.fst hp
  · intro h
    rcases List.mem_map.mp h with ⟨p, hp, he⟩
    exact List.any_eq_true.mpr ⟨p, hp, beq_iff_eq.mpr he⟩

theorem dkeys_dset_of_hasK (d : Dict) (k : PyStr) (v : JVal) (hk : hasK d k = true) :
    dkeys (dset d k v) = dkeys d := by
  rw [dset, if_pos hk]
  simp only [dkeys, List.map_map]
  apply List.map_congr_left
  intro p _
  by_cases hp : (p.1 == k) = true
  · simp [Function.comp, hp, (beq_iff_eq.mp hp).symm]
  · simp [Function.comp, hp]

theorem dkeys_dset_of_not_hasK (d : Dict) (k : PyStr) (v : JVal)
    (hk : hasK d k = false) : dkeys (dset d k v) = dkeys d ++ [k] := by
  rw [dset, if_neg (by simp [hk])]
  simp [dkeys]

theorem mem_dkeys_dset (d : Dict) (k : PyStr) (v : JVal) (k' : PyStr)
    (h : k' ∈ dkeys (dset d k v)) : k' ∈ dkeys d ∨ k' = k := by
  by_cases hk : hasK d k = true
  · rw [dkeys_dset_of_hasK d k v hk] at h; exact Or.inl h
  · rw [dkeys_dset_of_not_hasK d k v (by simpa using hk)] at h
    simpa using h

theorem nodup_dkeys_dset (d : Dict) (k : PyStr) (v : JVal)
    (h : (dkeys d).Nodup) : (dkeys (dset d k v)).Nodup := by
  by_cases hk : hasK d k = true
  · rw [dkeys_dset_of_hasK d k v hk]; exact h
  · rw [dkeys_dset_of_not_hasK d k v (by simpa using hk)]
    have hkm : k ∉ dkeys d := fun hm => hk ((hasK_iff_mem_dkeys d k).mpr hm)
    simp [List.nodup_append, h, hkm]

theorem dkeys_cons (k : PyStr) (v : JVal) (d : Dict) :
    dkeys ((k, v) :: d) = k :: dkeys d := rfl

theorem applyUpdates_cons (row : Dict) (k : PyStr) (v : JVal) (us : Dict) :
    applyUpdates row ((k, v) :: us) = applyUpdates (dset row k v) us := rfl

theorem dget_applyUpdates_not_mem (row us : Dict) (k : PyStr)
    (h : k ∉ dkeys us) : dget (applyUpdates row us) k = dget row k := by
  induction us generalizing row with
  | nil => rfl
  | cons p us ih =>
    obtain ⟨k0, v0⟩ := p
    rw [applyUpdates_cons]
    have h1 : k ∉ dkeys us := fun hm => h (List.mem_cons_of_mem _ hm)
    have h2 : k ≠ k0 := fun he => h (by simp [dkeys_cons, he])
    rw [ih _ h1, dget_dset_ne _ _ _ _ h2]

theorem dget_applyUpdates_mem (row us : Dict) (k : PyStr) (v : JVal)
    (hnd : (dkeys us).Nodup) (hmem : (k, v) ∈ us) :
    dget (applyUpdates row us) k = some v := by
  induction us generalizing row with
  | nil => simp at hmem
  | cons p us ih =>
    obtain ⟨k0, v0⟩ := p
    rw [dkeys_cons, List.nodup_cons] at hnd
    rw [applyUpdates_cons]
    rcases List.mem_cons.mp hmem with he | hm
    · cases he
      rw [dget_applyUpdates_not_mem _ _ _ hnd.1, dget_dset_self]
    · exact ih _ hnd.2 hm

theorem dset_append_of_not_mem (d : Dict) (k : PyStr) (v : JVal)
    (h : k ∉ dkeys d) : dset d k v = d ++ [(k, v)] := by
  rw [dset, if_neg]
  intro hk
  exact h ((hasK_iff_mem_dkeys d k).mp hk)

theorem foldl_dset_filter (p : PyStr → Bool) :
    ∀ (items : List (PyStr × JVal)) (u : Dict),
      (dkeys (u ++ items)).Nodup →
      items.foldl (fun u kv => if p kv.1 then dset u kv.1 kv.2 else u) u
        = u ++ items.filter (fun kv => p kv.1) := by
  intro items
  induction items with
  | nil => intro u _; simp
  | cons kv rest ih =>
    intro u hnd
    obtain ⟨k0, v0⟩ := kv
    have hk0 : k0 ∉ dkeys u := by
      intro hm
      have : ¬ (dkeys (u ++ (k0, v0) :: rest)).Nodup := by
        simp only [dkeys, List.map_append, List.map_cons]
        intro hn
        exact (List.disjoint_of_nodup_append hn) hm (by simp)
      exact this hnd
    have hnd2 : (dkeys ((u ++ [(k0, v0)]) ++ rest)).Nodup := by
      simpa [dkeys] using hnd
    have hnd3 : (dkeys (u ++ rest)).Nodup := by
      refine hnd.sublist ?_
      simp only [dkeys, List.map_append, List.map_cons]
      exact List.Sublist.append_left (List.sublist_cons_self _ _) _
    rw [List.foldl_cons]
    by_cases hp : p k0 = true
    · rw [if_pos hp, dset_append_of_not_mem _ _ _ hk0, ih _ hnd2]
      simp [hp]
    · rw [if_neg hp, ih _ hnd3]
      simp [hp]

theorem dkeys_foldl_dset_pred (p : PyStr → Bool) :
    ∀ (items : List (PyStr × JVal)) (u : Dict) (k : PyStr),
      k ∈ dkeys (items.foldl (fun u kv => if p kv.1 then dset u kv.1 kv.2 else u) u) →
      k ∈ dkeys u ∨ p k = true := by
  intro items
  induction items with
  | nil => intro u k h; exact Or.inl h
  | cons kv rest ih =>
    intro u k h
    obtain ⟨k0, v0⟩ := kv
    rw [List.foldl_cons] at h
    by_cases hp : p k0 = true
    · rw [if_pos hp] at h
      rcases ih _ _ h with hm | hm
      · rcases mem_dkeys_dset _ _ _ _ hm with hm2 | hm2
        · exact Or.inl hm2
        · exact Or.inr (hm2 ▸ hp)
      · exact Or.inr hm
    · rw [if_neg hp] at h
      rcases ih _ _ h with hm | hm
      · exact Or.inl hm
      · exact Or.inr hm

theorem dkeys_serializeDict (d : Dict) : dkeys (serializeDict d) = dkeys d := by
  simp only [dkeys, serializeDict, List.map_map]
  rfl

theorem mem_serializeDict (d : Dict) (k : PyStr) (v : JVal) (h : (k, v) ∈ d) :
    (k, serializeField k v) ∈ serializeDict d :=
  List.mem_map_of_mem (fun kv => (kv.1, serializeField kv.1 kv.2)) h

theorem idMatches_applyUpdates (r us : Dict) (id : Nat) (hid : kId ∉ dkeys us) :
    idMatches id (applyUpdates r us) = idMatches id r := by
  unfold idMatches
  rw [dget_applyUpdates_not_mem _ _ _ hid]

theorem find?_cons_eq {α : Type} (p : α → Bool) (a : α) (l : List α) :
    (a :: l).find? p = if p a = true then some a else l.find? p := by
  rw [List.find?_cons]
  cases p a <;> simp

theorem find?_map_update (id : Nat) (us : Dict) (hid : kId ∉ dkeys us) :
    ∀ (rows : List Dict) (row : Dict), rows.find? (idMatches id) = some row →
      (rows.map (fun r => if idMatches id r then applyUpdates r us else r)).find?
          (idMatches id) = some (applyUpdates row us) := by
  intro rows
  induction rows with
  | nil => intro row h; simp at h
  | cons r rows ih =>
    intro row h
    rw [find?_cons_eq] at h
    rw [List.map_cons, find?_cons_eq]
    cases hr : idMatches id r
    · rw [hr, if_neg (by simp)] at h
      rw [if_neg (by simp [hr])]
      exact ih row h
    · rw [hr, if_pos rfl] at h
      injection h with h
      subst h
      simp [idMatches_applyUpdates _ _ _ hid, hr]

theorem find?_map_update_none (id : Nat) (us : Dict) (rows : List Dict)
    (h : rows.find? (idMatches id) = none) :
    rows.map (fun r => if idMatches id r then applyUpdates r us else r) = rows := by
  induction rows with
  | nil => rfl
  | cons r rows ih =>
    rw [find?_cons_eq] at h
    cases hr : idMatches id r
    · rw [hr, if_neg (by simp)] at h
      rw [List.map_cons, if_neg (by simp [hr]), ih h]
    · rw [hr, if_pos rfl] at h
      exact absurd h (by simp)

theorem find?_first {α : Type} (p : α → Bool) :
    ∀ (l : List α) (a : α), l.find? p = some a →
      p a = true ∧ ∃ l₁ l₂, l = l₁ ++ a :: l₂ ∧ ∀ x ∈ l₁, p x = false := by
  intro l
  induction l with
  | nil => intro a h; simp at h
  | cons b l ih =>
    intro a h
    rw [find?_cons_eq] at h
    cases hb : p b
    · rw [hb, if_neg (by simp)] at h
      obtain ⟨hpa, l₁, l₂, rfl, hall⟩ := ih a h
      exact ⟨hpa, b :: l₁, l₂, rfl, by
        intro x hx
        rcases List.mem_cons.mp hx with rfl | hx
        · exact hb
        · exact hall x hx⟩
    · rw [hb, if_pos rfl] at h
      injection h with h
      subst h
      exact ⟨hb, [], l, rfl, by simp⟩

/-!
## Claim theorems
-/

/-- C4: every error raised inside a Metadata Provider call — and every
JSON-parsing failure of the returned text — is caught at the provider
boundary and does not propagate: entity extraction returns an empty
sequence, enrichment an empty mapping, and category matching an empty
sequence. -/
theorem provider_boundary_degrades_empty :
    extract_shows_from_image (.error ()) = .arr [] ∧
    enrich_show_info (.error ()) = .obj [] ∧
    match_user_categories (.error ()) = .arr [] ∧
    ∀ s : PyStr, parseResponse s = none →
      extract_shows_from_image (.ok s) = .arr [] ∧
      enrich_show_info (.ok s) = .obj [] ∧
      match_user_categories (.ok s) = .arr [] := by
  refine ⟨rfl, rfl, rfl, ?_⟩
  intro s h
  refine ⟨?_, ?_, ?_⟩ <;>
    simp [extract_shows_from_image, enrich_show_info, match_user_categories,
      providerJson, h]

theorem provider_boundary_degrades_empty_witness :
    parseResponse (enc "not json") = none ∧
    extract_shows_from_image (.ok (enc "not json")) = .arr [] ∧
    enrich_show_info (.ok (enc "not json")) = .obj [] ∧
    match_user_categories (.ok (enc "not json")) = .arr [] := by
  have h : parseResponse (enc "not json") = none := rfl
  exact ⟨h, provider_boundary_degrades_empty.2.2.2 (enc "not json") h⟩

theorem dupPred_iff (sn tn : PyStr) (da : Option JVal) (shw : Dict) :
    dupPred sn tn da shw = true ↔ dupMatches sn tn da shw := by
  unfold dupPred dupMatches nameMatches
  cases da with
  | none => simp [beq_iff_eq, and_assoc]
  | some v =>
    cases htv : truthy v with
    | false => simp [htv, beq_iff_eq, and_assoc]
    | true => simp [htv, beq_iff_eq, and_assoc]

/-- C10: an empty-string `date_attended` is falsy, so `find_duplicate`
(and hence `add_show`'s duplicate decision) treats it exactly like an
absent date: any stored show with the same normalized names collides,
whatever its stored `date_attended`. -/
theorem empty_date_behaves_as_none :
    (∀ (shows : List Dict) (sn tn : PyStr),
      find_duplicate shows sn tn (some (.str [])) = find_duplicate shows sn tn none) ∧
    (∀ (db : DBS) (env : EnrichEnv) (sd : Dict) (ae : Option Bool) (now : PyStr),
      dget sd kDate = some (.str []) →
      ((add_show db env sd ae now).2.2 = enc "duplicate" ↔
        (find_duplicate (allShows db) (getS sd kShowName) (getS sd kTheater)
          none).isSome)) ∧
    (∀ (shows : List Dict) (sn tn : PyStr) (x : Dict), x ∈ shows →
      nameMatches sn tn x →
      (find_duplicate shows sn tn (some (.str []))).isSome) := by
  have h1 : ∀ (shows : List Dict) (sn tn : PyStr),
      find_duplicate shows sn tn (some (.str [])) = find_duplicate shows sn tn none := by
    intro shows sn tn
    rfl
  refine ⟨h1, ?_, ?_⟩
  · intro db env sd ae now h
    rw [add_show, h, h1]
    cases hfd : find_duplicate (allShows db) (getS sd kShowName) (getS sd kTheater)
        none with
    | some dup => simp [hfd]
    | none =>
      simp only [hfd]
      constructor
      · intro hc
        exact absurd hc (by decide)
      · intro hc
        exact absurd hc (by simp)
  · intro shows sn tn x hx hnm
    rw [h1]
    apply List.find?_isSome.mpr
    refine ⟨x, hx, ?_⟩
    exact (dupPred_iff sn tn none x).mpr ⟨hnm, by intro v hv; cases hv⟩

theorem empty_date_behaves_as_none_witness :
    find_duplicate [wickedRow] (enc "Wicked") (enc "Gershwin Theatre")
        (some (.str [])) =
      find_duplicate [wickedRow] (enc "Wicked") (enc "Gershwin Theatre") none ∧
    wickedRow ∈ [wickedRow] ∧
    nameMatches (enc "Wicked") (enc "Gershwin Theatre") wickedRow ∧
    (find_duplicate [wickedRow] (enc "Wicked") (enc "Gershwin Theatre")
      (some (.str []))).isSome = true := by
  refine ⟨empty_date_behaves_as_none.1 [wickedRow] _ _, by simp, ?_, ?_⟩
  · exact ⟨by decide, by decide⟩
  · exact empty_date_behaves_as_none.2.2 [wickedRow] _ _ wickedRow (by simp)
      ⟨by decide, by decide⟩

/-- C2: past the short-circuit with `force=false` the computed missing
set is non-empty, and the pending update set accepts exactly the
response fields inside that set, discarding every other response field;
with `force=true` every response field is accepted. -/
theorem enrich_updates_filter_missing :
    (∀ (shw : Dict) (items : List (PyStr × JVal)),
      missingFields shw ≠ [] → (dkeys items).Nodup →
      enrichUpdates items false (some (missingFields shw))
        = items.filter (fun kv => (missingFields shw).contains kv.1)) ∧
    ∀ (items : List (PyStr × JVal)), (dkeys items).Nodup →
      enrichUpdates items true none = items := by
  constructor
  · intro shw items hne hnd
    have hm : mfOr (some (missingFields shw)) = missingFields shw := by
      cases hmf : missingFields shw with
      | nil => exact absurd hmf hne
      | cons a l => rfl
    have key := foldl_dset_filter (fun k => (mfOr (some (missingFields shw))).contains k)
      items [] (by simpa using hnd)
    rw [hm] at key
    simpa [enrichUpdates, hm] using key
  · intro items hnd
    have key := foldl_dset_filter (fun _ => true) items [] (by simpa using hnd)
    simpa [enrichUpdates] using key

theorem enrich_updates_filter_missing_witness :
    missingFields (rowToDict catsRowNoPlot) ≠ [] ∧
    (dkeys [(kPlot, JVal.str (enc "cats sing")), (enc "genre", JVal.str (enc "Opera"))]).Nodup ∧
    enrichUpdates [(kPlot, JVal.str (enc "cats sing")), (enc "genre", JVal.str (enc "Opera"))]
        false (some (missingFields (rowToDict catsRowNoPlot)))
      = List.filter (fun kv => (missingFields (rowToDict catsRowNoPlot)).contains kv.1)
          [(kPlot, JVal.str (enc "cats sing")), (enc "genre", JVal.str (enc "Opera"))] ∧
    enrichUpdates [(kPlot, JVal.str (enc "cats sing"))] true none
      = [(kPlot, JVal.str (enc "cats sing"))] := by
  refine ⟨by decide, by decide, ?_, ?_⟩
  · exact enrich_updates_filter_missing.1 _ _ (by decide) (by decide)
  · exact enrich_updates_filter_missing.2 _ (by decide)

/-- C5: when every enrichable field of a record is populated, non-force
enrichment short-circuits — the store is untouched, no provider call is
issued, and the record is returned as read; and `force=true` always
issues exactly one `enrichEntity` call with `missing_fields=None`,
i.e. requesting the full enrichable field set, whatever is populated. -/
theorem enrich_short_circuit_and_force_call :
    (∀ (db : DBS) (env : EnrichEnv) (id : Nat) (now : PyStr) (shw : Dict),
      db_get_show db id = some shw → missingFields shw = [] →
      enrich_show db env id false now = (.ok (db, some shw), [])) ∧
    ∀ (db : DBS) (env : EnrichEnv) (id : Nat) (now : PyStr) (shw : Dict),
      db_get_show db id = some shw →
      (enrich_show db env id true now).2.filter isEnrichCall
        = [.enrichEntity none] := by
  constructor
  · intro db env id now shw h1 h2
    rw [enrich_show]
    simp only [h1]
    split
    · rfl
    · next hcond => exact (hcond (by simp [h2])).elim
  · intro db env id now shw h1
    rw [enrich_show]
    simp only [h1]
    split
    · next hcond => simp at hcond
    · cases he : enrich_show_info env.enrichResp <;>
        simp only [he] <;>
        first
          | (split <;> simp [isEnrichCall, enrichMf, List.filter])
          | simp [isEnrichCall, enrichMf, List.filter]

theorem enrich_short_circuit_and_force_call_witness :
    db_get_show ⟨[catsRowFull], 4⟩ 3 = some (rowToDict catsRowFull) ∧
    missingFields (rowToDict catsRowFull) = [] ∧
    enrich_show ⟨[catsRowFull], 4⟩ ⟨.error (), .error (), [], true⟩ 3 false (enc "T")
      = (.ok (⟨[catsRowFull], 4⟩, some (rowToDict catsRowFull)), []) ∧
    (enrich_show ⟨[catsRowFull], 4⟩ ⟨.error (), .error (), [], true⟩ 3 true
        (enc "T")).2.filter isEnrichCall = [.enrichEntity none] := by
  refine ⟨rfl, by decide, ?_, ?_⟩
  · exact enrich_short_circuit_and_force_call.1 _ _ 3 _ _ rfl (by decide)
  · exact enrich_short_circuit_and_force_call.2 _ ⟨.error (), .error (), [], true⟩ 3
      (enc "T") _ rfl

/-- C1 counterexample: with a stored date of `2023-05-01`, a supplied
`date_attended` of `""` still matches — the claim's rule that a supplied
date must be exactly string-equal to the stored one fails for the empty
string, because the branch tests truthiness, not presence. -/
theorem find_duplicate_empty_date_counterexample :
    find_duplicate [wickedRow] (enc "Wicked") (enc "Gershwin Theatre")
        (some (.str [])) = some wickedRow ∧
    dget wickedRow kDate = some (.str (enc "2023-05-01")) ∧
    enc "2023-05-01" ≠ ([] : PyStr) := by
  refine ⟨rfl, rfl, by decide⟩

/-- C1 (amended): `find_duplicate` returns the first stored record — in
the scan order the store yields — whose normalized names both match and
which, whenever the supplied `date_attended` is truthy, stores exactly
that date; `none` when no record qualifies.  Consequently an `add_show`
carrying no date collides with any stored name+theater match. -/
theorem find_duplicate_first_match :
    (∀ (shows : List Dict) (sn tn : PyStr) (da : Option JVal) (r : Dict),
      find_duplicate shows sn tn da = some r →
      dupMatches sn tn da r ∧
      ∃ pre post, shows = pre ++ r :: post ∧ ∀ x ∈ pre, ¬ dupMatches sn tn da x) ∧
    (∀ (shows : List Dict) (sn tn : PyStr) (da : Option JVal),
      find_duplicate shows sn tn da = none →
      ∀ x ∈ shows, ¬ dupMatches sn tn da x) ∧
    (∀ (db : DBS) (env : EnrichEnv) (sd : Dict) (ae : Option Bool) (now : PyStr),
      dget sd kDate = none →
      (∃ x ∈ allShows db, nameMatches (getS sd kShowName) (getS sd kTheater) x) →
      (add_show db env sd ae now).2.2 = enc "duplicate") := by
  refine ⟨?_, ?_, ?_⟩
  · intro shows sn tn da r h
    obtain ⟨hp, pre, post, heq, hall⟩ := find?_first _ shows r h
    refine ⟨(dupPred_iff sn tn da r).mp hp, pre, post, heq, ?_⟩
    intro x hx hd
    have := hall x hx
    rw [(dupPred_iff sn tn da x).mpr hd] at this
    exact absurd this (by simp)
  · intro shows sn tn da h x hx hd
    have := List.find?_eq_none.mp h x hx
    exact this ((dupPred_iff sn tn da x).mpr hd)
  · intro db env sd ae now hd ⟨x, hx, hnm⟩
    have hsome : (find_duplicate (allShows db) (getS sd kShowName) (getS sd kTheater)
        none).isSome := by
      apply List.find?_isSome.mpr
      exact ⟨x, hx, (dupPred_iff _ _ none x).mpr ⟨hnm, by intro v hv; cases hv⟩⟩
    obtain ⟨dup, hdup⟩ := Option.isSome_iff_exists.mp hsome
    rw [add_show, hd, hdup]

theorem jvalEq_str (a b : PyStr) : jvalEq (.str a) (.str b) = (a == b) := by
  simp [jvalEq]

theorem find_duplicate_first_match_witness :
    find_duplicate [wickedRow] (enc "wicked!") (enc "GERSHWIN  theatre")
        (some (.str (enc "2023-05-01"))) = some wickedRow ∧
    dupMatches (enc "wicked!") (enc "GERSHWIN  theatre")
      (some (.str (enc "2023-05-01"))) wickedRow := by
  have hpred : dupPred (enc "wicked!") (enc "GERSHWIN  theatre")
      (some (.str (enc "2023-05-01"))) wickedRow = true := by
    have hd : dget wickedRow kDate = some (JVal.str (enc "2023-05-01")) := rfl
    simp only [dupPred, hd, Option.getD_some, jvalEq_str]
    decide
  have h : find_duplicate [wickedRow] (enc "wicked!") (enc "GERSHWIN  theatre")
      (some (.str (enc "2023-05-01"))) = some wickedRow := by
    rw [find_duplicate, find?_cons_eq, if_pos hpred]
  exact ⟨h, (find_duplicate_first_match.1 [wickedRow] _ _ _ wickedRow h).1⟩

/-- C8 counterexample: `UPDATE ... WHERE id = ?` with an id that matches
no row affects zero rows and returns normally — there is no `NotFound`
failure path in `Database.update_show`; the call is a silent no-op. -/
theorem update_show_missing_id_counterexample :
    getShowRaw ⟨[], 1⟩ 5 = none ∧
    db_update_show ⟨[], 1⟩ 5 [(enc "rating", .int 7)] (enc "T") = ⟨[], 1⟩ := by
  exact ⟨rfl, rfl⟩

/-- C8 (amended): `update_show` on an id that matches no row leaves the
store unchanged and does not fail; on an existing id it rewrites exactly
the caller's fields (serialised where applicable) plus the
`last_updated` stamp, leaving every other column of the row intact. -/
theorem update_show_partial_update :
    ∀ (db : DBS) (id : Nat) (us : Dict) (now : PyStr),
      (getShowRaw db id = none → db_update_show db id us now = db) ∧
      ((dkeys us).Nodup → kId ∉ dkeys us → kLastUpdated ∉ dkeys us →
        ∀ row, getShowRaw db id = some row →
          getShowRaw (db_update_show db id us now) id
            = some (applyUpdates row (storedUpdates us now)) ∧
          (∀ k v, (k, v) ∈ us →
            dget (applyUpdates row (storedUpdates us now)) k
              = some (serializeField k v)) ∧
          (∀ k, k ∉ dkeys us → k ≠ kLastUpdated →
            dget (applyUpdates row (storedUpdates us now)) k = dget row k) ∧
          dget (applyUpdates row (storedUpdates us now)) kLastUpdated
            = some (.str now)) := by
  intro db id us now
  constructor
  · intro h
    cases db with
    | mk rows nextId =>
      simp only [db_update_show]
      rw [show (rows.map (fun row =>
          if idMatches id row then applyUpdates row (storedUpdates us now) else row))
          = rows from find?_map_update_none id (storedUpdates us now) rows h]
  · intro hnd hid hlu row hrow
    have hkeys2 : dkeys (storedUpdates us now) = dkeys us ++ [kLastUpdated] := by
      rw [storedUpdates, dkeys_serializeDict]
      exact dkeys_dset_of_not_hasK _ _ _ (by
        cases hhk : hasK us kLastUpdated
        · rfl
        · exact absurd ((hasK_iff_mem_dkeys _ _).mp hhk) hlu)
    have hndS : (dkeys (storedUpdates us now)).Nodup := by
      rw [hkeys2]
      simp [List.nodup_append, hnd, hlu]
    have hidS : kId ∉ dkeys (storedUpdates us now) := by
      rw [hkeys2]
      intro hm
      rcases List.mem_append.mp hm with hm | hm
      · exact hid hm
      · exact absurd (List.mem_singleton.mp hm) (by decide)
    refine ⟨?_, ?_, ?_, ?_⟩
    · cases db with
      | mk rows nextId =>
        simp only [db_update_show, getShowRaw] at hrow ⊢
        exact find?_map_update id (storedUpdates us now) hidS rows row hrow
    · intro k v hkv
      have hk_ne : k ≠ kLastUpdated := by
        intro he
        exact hlu (he ▸ List.mem_map_of_mem Prod.fst hkv)
      have hmem : (k, serializeField k v) ∈ storedUpdates us now := by
        rw [storedUpdates, dset_append_of_not_mem _ _ _ hlu]
        exact mem_serializeDict _ _ _ (List.mem_append_left _ hkv)
      exact dget_applyUpdates_mem _ _ _ _ hndS hmem
    · intro k hk hkne
      apply dget_applyUpdates_not_mem
      rw [hkeys2]
      intro hm
      rcases List.mem_append.mp hm with hm | hm
      · exact hk hm
      · exact hkne (List.mem_singleton.mp hm)
    · have hmem : (kLastUpdated, serializeField kLastUpdated (.str now))
          ∈ storedUpdates us now := by
        rw [storedUpdates, dset_append_of_not_mem _ _ _ hlu]
        exact mem_serializeDict _ _ _ (List.mem_append_right _ (by simp))
      have hser : serializeField kLastUpdated (.str now) = .str now := rfl
      rw [← hser]
      exact dget_applyUpdates_mem _ _ _ _ hndS hmem

theorem update_show_partial_update_witness :
    getShowRaw ⟨[wickedRow], 2⟩ 1 = some wickedRow ∧
    getShowRaw (db_update_show ⟨[wickedRow], 2⟩ 1 [(enc "rating", JVal.int 7)] (enc "T")) 1
      = some (applyUpdates wickedRow
          (storedUpdates [(enc "rating", JVal.int 7)] (enc "T"))) ∧
    dget (applyUpdates wickedRow (storedUpdates [(enc "rating", JVal.int 7)] (enc "T")))
      (enc "rating") = some (serializeField (enc "rating") (JVal.int 7)) ∧
    dget (applyUpdates wickedRow (storedUpdates [(enc "rating", JVal.int 7)] (enc "T")))
      kShowName = dget wickedRow kShowName ∧
    dget (applyUpdates wickedRow (storedUpdates [(enc "rating", JVal.int 7)] (enc "T")))
      kLastUpdated = some (.str (enc "T")) := by
  have h := (update_show_partial_update ⟨[wickedRow], 2⟩ 1 [(enc "rating", JVal.int 7)]
    (enc "T")).2 (by decide) (by decide) (by decide) wickedRow rfl
  exact ⟨rfl, h.1, h.2.1 _ _ (by simp), h.2.2.1 kShowName (by decide) (by decide), h.2.2.2⟩

theorem mem_mfOr_enrichable (shw : Dict) (force : Bool) (k : PyStr)
    (h : k ∈ mfOr (enrichMf force shw)) : k ∈ enrichable_fields := by
  cases force with
  | true =>
    rw [show enrichMf true shw = none from rfl] at h
    simpa [mfOr] using h
  | false =>
    rw [show enrichMf false shw = some (missingFields shw) from rfl] at h
    cases hmf : missingFields shw with
    | nil => rw [hmf] at h; simpa [mfOr] using h
    | cons a l =>
      rw [hmf, show mfOr (some (a :: l)) = a :: l from rfl] at h
      have hk : k ∈ missingFields shw := hmf ▸ h
      exact (List.mem_filter.mp hk).1

theorem dkeys_enrichUpdates_false (items : List (PyStr × JVal)) (shw : Dict)
    (k : PyStr) (h : k ∈ dkeys (enrichUpdates items false (enrichMf false shw))) :
    k ∈ enrichable_fields := by
  have h2 := dkeys_foldl_dset_pred
    (fun k0 => false || (mfOr (enrichMf false shw)).contains k0) items [] k h
  rcases h2 with h0 | hp
  · simp [dkeys] at h0
  · exact mem_mfOr_enrichable shw false k (by simpa using hp)

theorem kId_not_mem_stored (updates : Dict) (now : PyStr)
    (h : ∀ k ∈ dkeys updates, k ∈ enrichable_fields ∨ k = kUserCats) :
    kId ∉ dkeys (storedUpdates updates now) := by
  intro hm
  rw [storedUpdates, dkeys_serializeDict] at hm
  rcases mem_dkeys_dset _ _ _ _ hm with hm | hm
  · rcases h kId hm with h2 | h2
    · exact absurd h2 (by decide)
    · exact absurd h2 (by decide)
  · exact absurd hm (by decide)

theorem enrich_show_false_ok_db (db : DBS) (env : EnrichEnv) (id : Nat)
    (now : PyStr) (q : DBS × Option Dict)
    (h : (enrich_show db env id false now).1 = .ok q) :
    q.1 = db ∨ ∃ us, q.1 = db_update_show db id us now ∧
      kId ∉ dkeys (storedUpdates us now) := by
  rw [enrich_show] at h
  dsimp only at h
  split at h
  · simp at h
  · next shw heq =>
    split at h
    · injection h with h2
      exact Or.inl (congrArg Prod.fst h2).symm
    · split at h
      case _ items he =>
        have hkey : ∀ v, ∀ k ∈ dkeys (dset (enrichUpdates items false
            (enrichMf false shw)) kUserCats v), k ∈ enrichable_fields ∨ k = kUserCats := by
          intro v k hk
          rcases mem_dkeys_dset _ _ _ _ hk with hk | hk
          · exact Or.inl (dkeys_enrichUpdates_false items shw k hk)
          · exact Or.inr hk
        have hkey2 : ∀ k ∈ dkeys (enrichUpdates items false (enrichMf false shw)),
            k ∈ enrichable_fields ∨ k = kUserCats := by
          intro k hk
          exact Or.inl (dkeys_enrichUpdates_false items shw k hk)
        split at h
        · injection h with h2
          have hq1 := (congrArg Prod.fst h2).symm
          by_cases hemp : (dset (enrichUpdates items false (enrichMf false shw))
              kUserCats (match_user_categories env.catResp)).isEmpty = true
          · rw [if_pos hemp] at hq1
            exact Or.inl hq1
          · rw [if_neg hemp] at hq1
            exact Or.inr ⟨_, hq1, kId_not_mem_stored _ _ (hkey _)⟩
        · injection h with h2
          have hq1 := (congrArg Prod.fst h2).symm
          by_cases hemp : (enrichUpdates items false (enrichMf false shw)).isEmpty = true
          · rw [if_pos hemp] at hq1
            exact Or.inl hq1
          · rw [if_neg hemp] at hq1
            exact Or.inr ⟨_, hq1, kId_not_mem_stored _ _ hkey2⟩
      case _ he hne => simp at h

theorem getShowRaw_add (db : DBS) (sd : Dict) (now : PyStr) :
    ((getShowRaw (db_add_show db sd now).1 (db_add_show db sd now).2).isSome = true) ∧
    (db_add_show db sd now).1.nextId = db.nextId + 1 ∧
    (db_add_show db sd now).2 = db.nextId := by
  refine ⟨?_, rfl, rfl⟩
  rw [db_add_show, getShowRaw]
  apply List.find?_isSome.mpr
  refine ⟨dset (serializeDict (dset (dset sd kDateAdded (.str now)) kLastUpdated
    (.str now))) kId (.int (Int.ofNat db.nextId)), by simp, ?_⟩
  rw [idMatches, dget_dset_self]
  simp

theorem isSome_getShowRaw_update (db : DBS) (id : Nat) (us : Dict) (now : PyStr)
    (hid : kId ∉ dkeys (storedUpdates us now))
    (hs : (getShowRaw db id).isSome = true) :
    (getShowRaw (db_update_show db id us now) id).isSome = true := by
  obtain ⟨row, hrow⟩ := Option.isSome_iff_exists.mp hs
  cases db with
  | mk rows nextId =>
    rw [db_update_show, getShowRaw]
    rw [getShowRaw] at hrow
    rw [find?_map_update id (storedUpdates us now) hid rows row hrow]
    rfl

/-- C7: a duplicate leaves the store untouched and returns the existing
record's id with outcome `duplicate`; otherwise the record is inserted
under the fresh id, outcome `added` is returned, and — whatever the
provider does during the auto-enrichment attempt, including failing —
the inserted record is still present and `add_show` returns normally. -/
theorem add_show_duplicate_or_insert :
    ∀ (db : DBS) (env : EnrichEnv) (sd : Dict) (ae : Option Bool) (now : PyStr),
      (∀ dup, find_duplicate (allShows db) (getS sd kShowName) (getS sd kTheater)
          (dget sd kDate) = some dup →
        add_show db env sd ae now = (db, getI dup kId, enc "duplicate")) ∧
      (find_duplicate (allShows db) (getS sd kShowName) (getS sd kTheater)
          (dget sd kDate) = none →
        ∃ db2, add_show db env sd ae now = (db2, Int.ofNat db.nextId, enc "added") ∧
          db2.nextId = db.nextId + 1 ∧
          (getShowRaw db2 db.nextId).isSome = true) := by
  intro db env sd ae now
  constructor
  · intro dup h
    rw [add_show, h]
  · intro h
    rw [add_show, h]
    dsimp only
    have h2 : (getShowRaw (db_add_show db sd now).1 db.nextId).isSome = true :=
      (getShowRaw_add db sd now).1
    refine ⟨_, rfl, ?_, ?_⟩
    · cases hb : ae.getD env.autoEnrichDefault with
      | false => rw [if_neg (by simp)]; rfl
      | true =>
        rw [if_pos rfl]
        split
        · next q hq =>
          rcases enrich_show_false_ok_db _ _ _ _ _ hq with hdb | ⟨us, hdb, _⟩
          · rw [hdb]; rfl
          · rw [hdb]; rfl
        · next e hq => rfl
    · cases hb : ae.getD env.autoEnrichDefault with
      | false => rw [if_neg (by simp)]; exact h2
      | true =>
        rw [if_pos rfl]
        split
        · next q hq =>
          rcases enrich_show_false_ok_db _ _ _ _ _ hq with hdb | ⟨us, hdb, hkid⟩
          · rw [hdb]; exact h2
          · rw [hdb]
            exact isSome_getShowRaw_update _ _ us now hkid h2
        · next e hq => exact h2

theorem add_show_duplicate_or_insert_witness :
    add_show ⟨[wickedRow], 2⟩ ⟨.error (), .error (), [], true⟩
        [(kShowName, JVal.str (enc "Wicked")), (kTheater, JVal.str (enc "Gershwin Theatre"))]
        none (enc "T")
      = (⟨[wickedRow], 2⟩, getI wickedRow kId, enc "duplicate") ∧
    ∃ db2, add_show ⟨[wickedRow], 2⟩ ⟨.error (), .error (), [], true⟩
        [(kShowName, JVal.str (enc "New")), (kTheater, JVal.str (enc "X"))]
        none (enc "T")
      = (db2, Int.ofNat 2, enc "added") ∧ db2.nextId = 3 ∧
        (getShowRaw db2 2).isSome = true := by
  constructor
  · exact (add_show_duplicate_or_insert ⟨[wickedRow], 2⟩ ⟨.error (), .error (), [], true⟩
      _ none (enc "T")).1 wickedRow rfl
  · exact (add_show_duplicate_or_insert ⟨[wickedRow], 2⟩ ⟨.error (), .error (), [], true⟩
      _ none (enc "T")).2 rfl

theorem mem_dset_of_ne (d : Dict) (k0 : PyStr) (v0 : JVal) (k : PyStr) (v : JVal)
    (h : (k, v) ∈ d) (hne : k ≠ k0) : (k, v) ∈ dset d k0 v0 := by
  rw [dset]
  split
  · refine List.mem_map.mpr ⟨(k, v), h, ?_⟩
    rw [if_neg (by simpa using hne)]
  · exact List.mem_append_left _ h

theorem nodup_dkeys_foldl_dset (p : PyStr → Bool) :
    ∀ (items : List (PyStr × JVal)) (u : Dict), (dkeys u).Nodup →
      (dkeys (items.foldl (fun u kv => if p kv.1 then dset u kv.1 kv.2 else u) u)).Nodup := by
  intro items
  induction items with
  | nil => intro u h; exact h
  | cons kv rest ih =>
    intro u h
    rw [List.foldl_cons]
    by_cases hp : p kv.1 = true
    · rw [if_pos hp]
      exact ih _ (nodup_dkeys_dset _ _ _ h)
    · rw [if_neg hp]
      exact ih _ h

theorem dkeys_foldl_dset_subset (p : PyStr → Bool) :
    ∀ (items : List (PyStr × JVal)) (u : Dict) (k : PyStr),
      k ∈ dkeys (items.foldl (fun u kv => if p kv.1 then dset u kv.1 kv.2 else u) u) →
      k ∈ dkeys u ∨ k ∈ dkeys items := by
  intro items
  induction items with
  | nil => intro u k h; exact Or.inl h
  | cons kv rest ih =>
    intro u k h
    rw [List.foldl_cons] at h
    by_cases hp : p kv.1 = true
    · rw [if_pos hp] at h
      rcases ih _ _ h with hm | hm
      · rcases mem_dkeys_dset _ _ _ _ hm with hm2 | hm2
        · exact Or.inl hm2
        · exact Or.inr (by rw [hm2]; exact List.mem_cons_self _ _)
      · exact Or.inr (List.mem_cons_of_mem _ hm)
    · rw [if_neg hp] at h
      rcases ih _ _ h with hm | hm
      · exact Or.inl hm
      · exact Or.inr (List.mem_cons_of_mem _ hm)

theorem dset_isEmpty_false (d : Dict) (k : PyStr) (v : JVal) :
    (dset d k v).isEmpty = false := by
  rw [dset]
  split
  · next hk =>
    cases d with
    | nil => simp [hasK] at hk
    | cons p d => rfl
  · cases d <;> rfl

/-- C6: once enrich proceeds past the short-circuit with a truthy
plot_summary (fetched or pre-existing) and a non-empty configured
category list, `matchCategories` is invoked and `user_categories` is set
in the update set unconditionally — also in non-force mode — and the
whole update set (the accepted fields plus `user_categories`) is
persisted to the record; a failing `matchCategories` call merely makes
the stored `user_categories` empty without losing the other accepted
fields. -/
theorem enrich_categories_overwrite_resilient :
    ∀ (db : DBS) (env : EnrichEnv) (id : Nat) (force : Bool) (now : PyStr)
      (row : Dict) (items : List (PyStr × JVal)),
      getShowRaw db id = some row →
      enrich_show_info env.enrichResp = .obj items →
      (force = true ∨ missingFields (rowToDict row) ≠ []) →
      truthyO (pyOrOpt
        (dget (enrichUpdates items force (enrichMf force (rowToDict row))) kPlot)
        (dget (rowToDict row) kPlot)) = true →
      env.userCategories ≠ [] →
      kId ∉ dkeys items →
      dget (dset (enrichUpdates items force (enrichMf force (rowToDict row))) kUserCats
          (match_user_categories env.catResp)) kUserCats
        = some (match_user_categories env.catResp) ∧
      (enrich_show db env id force now).2
        = [.enrichEntity (enrichMf force (rowToDict row)),
           .matchCategories env.userCategories] ∧
      (enrich_show db env id force now).1
        = .ok (db_update_show db id
            (dset (enrichUpdates items force (enrichMf force (rowToDict row))) kUserCats
              (match_user_categories env.catResp)) now,
          db_get_show (db_update_show db id
            (dset (enrichUpdates items force (enrichMf force (rowToDict row))) kUserCats
              (match_user_categories env.catResp)) now) id) ∧
      getShowRaw (db_update_show db id
          (dset (enrichUpdates items force (enrichMf force (rowToDict row))) kUserCats
            (match_user_categories env.catResp)) now) id
        = some (applyUpdates row (storedUpdates
            (dset (enrichUpdates items force (enrichMf force (rowToDict row))) kUserCats
              (match_user_categories env.catResp)) now)) ∧
      (env.catResp = .error () →
        match_user_categories env.catResp = .arr [] ∧
        ∀ k v, (k, v) ∈ enrichUpdates items force (enrichMf force (rowToDict row)) →
          k ≠ kUserCats → k ≠ kLastUpdated →
          dget (applyUpdates row (storedUpdates
              (dset (enrichUpdates items force (enrichMf force (rowToDict row))) kUserCats
                (match_user_categories env.catResp)) now)) k
            = some (serializeField k v)) := by
  intro db env id force now row items hrow henr hpast hplot hcats hidk
  set shw := rowToDict row with hshw
  set u := enrichUpdates items force (enrichMf force shw) with hu
  set cats := match_user_categories env.catResp with hcatsv
  set u2 := dset u kUserCats cats with hu2
  have hshow : db_get_show db id = some shw := by
    rw [db_get_show, hrow]
    rfl
  have hnotsc : ¬(force = false ∧ missingFields shw = []) := by
    rintro ⟨hf, hm⟩
    rcases hpast with hp | hp
    · rw [hp] at hf; cases hf
    · exact hp hm
  have hkeys_u : ∀ k ∈ dkeys u, k ∈ dkeys items := by
    intro k hk
    rw [hu] at hk
    rcases dkeys_foldl_dset_subset
        (fun k0 => force || (mfOr (enrichMf force shw)).contains k0) items [] k hk
      with h0 | h0
    · simp [dkeys] at h0
    · exact h0
  have hidk_u2 : kId ∉ dkeys (storedUpdates u2 now) := by
    intro hm
    rw [storedUpdates, dkeys_serializeDict] at hm
    rcases mem_dkeys_dset _ _ _ _ hm with hm | hm
    · rw [hu2] at hm
      rcases mem_dkeys_dset _ _ _ _ hm with hm2 | hm2
      · exact hidk (hkeys_u _ hm2)
      · exact absurd hm2 (by decide)
    · exact absurd hm (by decide)
  have hnd_u2 : (dkeys (storedUpdates u2 now)).Nodup := by
    rw [storedUpdates, dkeys_serializeDict]
    apply nodup_dkeys_dset
    rw [hu2]
    apply nodup_dkeys_dset
    rw [hu]
    exact nodup_dkeys_foldl_dset
      (fun k0 => force || (mfOr (enrichMf force shw)).contains k0) items []
      (by simp [dkeys])
  have hE : enrich_show db env id force now
      = (.ok (db_update_show db id u2 now, db_get_show (db_update_show db id u2 now) id),
         [.enrichEntity (enrichMf force shw), .matchCategories env.userCategories]) := by
    rw [enrich_show, hshow]
    dsimp only
    rw [if_neg hnotsc, henr]
    dsimp only
    rw [← hu, ← hu2]
    rw [if_pos ⟨hplot, hcats⟩]
    rw [if_neg (by rw [dset_isEmpty_false]; simp)]
  have hget : getShowRaw (db_update_show db id u2 now) id
      = some (applyUpdates row (storedUpdates u2 now)) := by
    cases db with
    | mk rows nextId =>
      rw [db_update_show, getShowRaw]
      rw [getShowRaw] at hrow
      exact find?_map_update id (storedUpdates u2 now) hidk_u2 rows row hrow
  refine ⟨dget_dset_self _ _ _, by rw [hE], by rw [hE], hget, ?_⟩
  intro hcerr
  constructor
  · rw [hcatsv, hcerr]
    rfl
  · intro k v hkv hkuc hklu
    have hmem2 : (k, v) ∈ u2 := by
      rw [hu2]
      exact mem_dset_of_ne _ _ _ _ _ hkv hkuc
    have hmem3 : (k, serializeField k v) ∈ storedUpdates u2 now := by
      rw [storedUpdates]
      exact mem_serializeDict _ _ _ (mem_dset_of_ne _ _ _ _ _ hmem2 hklu)
    exact dget_applyUpdates_mem _ _ _ _ hnd_u2 hmem3

theorem enrich_categories_overwrite_resilient_witness :
    dget (dset (enrichUpdates [(kPlot, JVal.str (enc "cats sing"))] false
        (enrichMf false (rowToDict catsRowNoPlot))) kUserCats
        (match_user_categories (.error ()))) kUserCats
      = some (match_user_categories (.error ())) ∧
    (enrich_show ⟨[catsRowNoPlot], 4⟩
        ⟨.ok (123 :: enc "\"plot_summary\": \"cats sing\"" ++ [125]), .error (),
         [enc "family"], true⟩ 3 false (enc "T")).2
      = [.enrichEntity (enrichMf false (rowToDict catsRowNoPlot)),
         .matchCategories [enc "family"]] ∧
    match_user_categories (.error ()) = .arr [] ∧
    dget (applyUpdates catsRowNoPlot (storedUpdates
        (dset (enrichUpdates [(kPlot, JVal.str (enc "cats sing"))] false
          (enrichMf false (rowToDict catsRowNoPlot))) kUserCats
          (match_user_categories (.error ()))) (enc "T"))) kPlot
      = some (serializeField kPlot (JVal.str (enc "cats sing"))) := by
  have henr : enrich_show_info
      (Except.ok (123 :: enc "\"plot_summary\": \"cats sing\"" ++ [125]))
      = JVal.obj [(kPlot, JVal.str (enc "cats sing"))] := rfl
  have h := enrich_categories_overwrite_resilient ⟨[catsRowNoPlot], 4⟩
    ⟨.ok (123 :: enc "\"plot_summary\": \"cats sing\"" ++ [125]), .error (),
     [enc "family"], true⟩ 3 false (enc "T") catsRowNoPlot
    [(kPlot, JVal.str (enc "cats sing"))] rfl henr (Or.inr (by decide))
    (by decide) (by decide) (by decide)
  have hmem : (kPlot, JVal.str (enc "cats sing"))
      ∈ enrichUpdates [(kPlot, JVal.str (enc "cats sing"))] false
        (enrichMf false (rowToDict catsRowNoPlot)) := by
    rw [show enrichUpdates [(kPlot, JVal.str (enc "cats sing"))] false
        (enrichMf false (rowToDict catsRowNoPlot))
        = [(kPlot, JVal.str (enc "cats sing"))] from rfl]
    exact List.mem_singleton.mpr rfl
  exact ⟨h.1, h.2.1, (h.2.2.2.2 rfl).1,
    (h.2.2.2.2 rfl).2 kPlot (JVal.str (enc "cats sing")) hmem (by decide) (by decide)⟩

theorem fence_eq : fence = [96, 96, 96] := rfl

theorem fence_isPrefixOf_append (X : PyStr) :
    fence.isPrefixOf (fence ++ X) = true := by
  rw [fence_eq]
  simp [List.isPrefixOf]

theorem fence_isPrefixOf_cons_ne (c : Nat) (X : PyStr) (h : c ≠ 96) :
    fence.isPrefixOf (c :: X) = false := by
  rw [fence_eq]
  simp [List.isPrefixOf, Ne.symm h]

theorem fence_isPrefixOf_nil : fence.isPrefixOf [] = false := rfl

theorem encJson_isPrefixOf_append (X : PyStr) :
    (enc "json").isPrefixOf (enc "json" ++ X) = true := by
  rw [show enc "json" = [106, 115, 111, 110] from rfl]
  simp [List.isPrefixOf]

theorem encJson_isPrefixOf_lf (X : PyStr) :
    (enc "json").isPrefixOf (10 :: X) = false := by
  rw [show enc "json" = [106, 115, 111, 110] from rfl]
  simp [List.isPrefixOf]

theorem fence_isPrefixOf_self : fence.isPrefixOf fence = true := by
  rw [fence_eq]
  simp [List.isPrefixOf]

theorem pysplitGo_fence_main :
    ∀ (A acc : PyStr) (fuel : Nat), (A ++ fence).length + 1 ≤ fuel →
      (∀ A₁ A₂, A = A₁ ++ A₂ → A₂ ≠ [] → fence.isPrefixOf (A₂ ++ fence) = false) →
      pysplitGo fence fuel acc (A ++ fence) = [acc.reverse ++ A, []] := by
  intro A
  induction A with
  | nil =>
    intro acc fuel hf hA
    cases fuel with
    | zero => simp at hf
    | succ f =>
      rw [List.nil_append]
      simp only [pysplitGo, if_pos fence_isPrefixOf_self,
        show fence.drop fence.length = ([] : PyStr) from rfl]
      cases f with
      | zero => simp [pysplitGo]
      | succ f2 =>
        simp only [pysplitGo, fence_isPrefixOf_nil]
        simp
  | cons c A ih =>
    intro acc fuel hf hA
    cases fuel with
    | zero => simp at hf
    | succ f =>
      have hpre : fence.isPrefixOf (c :: (A ++ fence)) = false := by
        have := hA [] (c :: A) rfl (by simp)
        simpa using this
      rw [List.cons_append]
      simp only [pysplitGo, hpre]
      rw [show (if (false = true) then
          (acc.reverse :: pysplitGo fence f [] ((c :: (A ++ fence)).drop fence.length))
          else pysplitGo fence f (c :: acc) (A ++ fence))
          = pysplitGo fence f (c :: acc) (A ++ fence) from by simp]
      rw [ih (c :: acc) f (by
          simp only [List.length_append, List.length_cons] at hf ⊢
          omega)
        (fun A₁ A₂ h12 hne => hA (c :: A₁) A₂ (by rw [h12]; rfl) hne)]
      simp

theorem rstripWs_append (a b : PyStr) :
    rstripWs (a ++ b) = if rstripWs b = [] then rstripWs a else a ++ rstripWs b := by
  induction a with
  | nil =>
    simp only [List.nil_append]
    split
    · next h => rw [h]; rfl
    · rfl
  | cons c a ih =>
    rw [List.cons_append, rstripWs]
    by_cases hb : rstripWs b = []
    · rw [if_pos hb] at ih
      rw [ih, if_pos hb, rstripWs]
    · rw [if_neg hb] at ih
      rw [ih, if_neg hb, if_neg (by simp [hb])]
      rfl

theorem lstripWs_cons_ws (c : Nat) (X : PyStr) (h : pyWs c = true) :
    lstripWs (c :: X) = lstripWs X := by
  rw [lstripWs, List.dropWhile_cons, if_pos (by simp [h])]
  rfl

theorem lstripWs_cons_not_ws (c : Nat) (X : PyStr) (h : pyWs c = false) :
    lstripWs (c :: X) = c :: X := by
  rw [lstripWs, List.dropWhile_cons, if_neg (by simp [h])]

theorem pystrip_lf_wrap (t : PyStr) :
    pystrip ([10] ++ t ++ [10]) = pystrip t := by
  have h10 : rstripWs ([10] : PyStr) = [] := rfl
  have hassoc : ([10] ++ t ++ [10] : PyStr) = ([10] ++ t) ++ [10] := by simp
  rw [pystrip, hassoc, rstripWs_append ([10] ++ t) [10], h10, if_pos rfl,
    rstripWs_append [10] t]
  by_cases ht : rstripWs t = []
  · rw [if_pos ht, h10, pystrip, ht]
  · rw [if_neg ht,
      show ([10] ++ rstripWs t : PyStr) = 10 :: rstripWs t from rfl,
      lstripWs_cons_ws 10 _ (by decide), pystrip]

theorem pysplitGo_succ (sep : PyStr) (f : Nat) (acc s : PyStr) :
    pysplitGo sep (f + 1) acc s
      = if sep.isPrefixOf s then
          acc.reverse :: pysplitGo sep f [] (s.drop sep.length)
        else
          match s with
          | [] => [acc.reverse]
          | c :: r => pysplitGo sep f (c :: acc) r := rfl

theorem cleanContent_wrapJson (t : PyStr)
    (hA : ∀ A₁ A₂, enc "json" ++ [10] ++ t ++ [10] = A₁ ++ A₂ → A₂ ≠ [] →
      fence.isPrefixOf (A₂ ++ fence) = false) :
    cleanContent (wrapJson t) = pystrip t := by
  have hw : wrapJson t = fence ++ ((enc "json" ++ [10] ++ t ++ [10]) ++ fence) := by
    simp [wrapJson]
  rw [cleanContent, hw]
  generalize hGA : (enc "json" ++ [10] ++ t ++ [10] : PyStr) = A at hA ⊢
  rw [if_pos (fence_isPrefixOf_append _)]
  rw [pysplitGo_succ, if_pos (fence_isPrefixOf_append _)]
  rw [List.drop_left fence]
  rw [pysplitGo_fence_main A []
    ((fence ++ (A ++ fence)).length) (by simp [List.length_append, fence_eq]) hA]
  simp only [List.reverse_nil, List.nil_append]
  rw [show ([[], A, []] : List PyStr).getD 1 [] = A from rfl]
  rw [← hGA]
  rw [show ((enc "json" ++ [10] ++ t ++ [10]) : PyStr)
      = enc "json" ++ ([10] ++ t ++ [10]) from by simp]
  rw [encJson_isPrefixOf_append, if_pos rfl]
  rw [show (4 : Nat) = (enc "json").length from rfl, List.drop_left _ _]
  exact pystrip_lf_wrap t

theorem cleanContent_wrapPlain (t : PyStr)
    (hA : ∀ A₁ A₂, ([10] ++ t ++ [10] : PyStr) = A₁ ++ A₂ → A₂ ≠ [] →
      fence.isPrefixOf (A₂ ++ fence) = false) :
    cleanContent (wrapPlain t) = pystrip t := by
  have hw : wrapPlain t = fence ++ (([10] ++ t ++ [10]) ++ fence) := by
    simp [wrapPlain]
  rw [cleanContent, hw]
  generalize hGA : ([10] ++ t ++ [10] : PyStr) = A at hA ⊢
  rw [if_pos (fence_isPrefixOf_append _)]
  rw [pysplitGo_succ, if_pos (fence_isPrefixOf_append _)]
  rw [List.drop_left fence]
  rw [pysplitGo_fence_main A []
    ((fence ++ (A ++ fence)).length) (by simp [List.length_append, fence_eq]) hA]
  simp only [List.reverse_nil, List.nil_append]
  rw [show ([[], A, []] : List PyStr).getD 1 [] = A from rfl]
  rw [← hGA]
  rw [show ([10] ++ t ++ [10] : PyStr) = 10 :: (t ++ [10]) from rfl]
  rw [encJson_isPrefixOf_lf, if_neg (by simp)]
  rw [show (10 :: (t ++ [10]) : PyStr) = [10] ++ t ++ [10] from rfl]
  exact pystrip_lf_wrap t

theorem rstripWs_fence : rstripWs fence = fence := by decide

theorem pystrip_fence_wrap (B : PyStr) :
    pystrip (fence ++ B ++ fence) = fence ++ B ++ fence := by
  rw [pystrip, rstripWs_append (fence ++ B) fence, rstripWs_fence,
    if_neg (by simp [fence_eq])]
  rw [show ((fence ++ B) ++ fence : PyStr)
      = 96 :: (([96, 96] ++ B) ++ fence) from by simp [fence_eq]]
  rw [lstripWs_cons_not_ws 96 _ (by decide)]

theorem no_backtick_split (A : PyStr) (h : (96 : Nat) ∉ A) :
    ∀ A₁ A₂, A = A₁ ++ A₂ → A₂ ≠ [] → fence.isPrefixOf (A₂ ++ fence) = false := by
  intro A₁ A₂ hsplit hne
  cases A₂ with
  | nil => exact absurd rfl hne
  | cons c r =>
    have hc : c ∈ A := by
      rw [hsplit]; exact List.mem_append_right _ (List.mem_cons_self c r)
    have hcne : c ≠ 96 := fun hceq => h (hceq ▸ hc)
    rw [List.cons_append]
    exact fence_isPrefixOf_cons_ne c _ hcne

theorem cleanContent_no_backtick (t : PyStr) (h : (96 : Nat) ∉ t) :
    cleanContent t = t := by
  cases t with
  | nil => rfl
  | cons c r =>
    have hc : c ≠ 96 := fun hceq => h (hceq ▸ List.mem_cons_self c r)
    simp only [cleanContent, fence_isPrefixOf_cons_ne c r hc, Bool.false_eq_true,
      if_false]

/-- C9 counterexample: the JSON text `["```"]` is valid (it decodes to a
one-element array holding the three-backtick string) and parses fine
unwrapped, but wrapping it in a tagged fence makes the parser fail:
`split` on the fence marker cuts inside the payload, so element 1 of the
split is the truncated text `json\n["` and `json.loads` raises. -/
theorem parse_fenced_counterexample :
    jsonLoads (enc "[\"```\"]") = some (.arr [.str fence]) ∧
    parseResponse (enc "[\"```\"]") = some (.arr [.str fence]) ∧
    parseResponse (wrapJson (enc "[\"```\"]")) = none :=
  ⟨rfl, rfl, rfl⟩

/-- C9 (amended): for every valid JSON text `t` that contains no backtick
and carries no surrounding whitespace, parsing `t` wrapped in a fenced
block — with or without the `json` language tag — yields exactly the value
that parsing `t` unwrapped yields; and whenever the cleaned text fails
`json.loads`, the parser reports failure (`none`, the model of
`MalformedResponse`) rather than returning a value. -/
theorem parse_fence_roundtrip :
    (∀ t v, jsonLoads t = some v → (96 : Nat) ∉ t → pystrip t = t →
      parseResponse (wrapJson t) = some v ∧
      parseResponse (wrapPlain t) = some v ∧
      parseResponse t = some v) ∧
    (∀ raw, jsonLoads (cleanContent (pystrip raw)) = none →
      parseResponse raw = none) := by
  constructor
  · intro t v hv hbt hst
    have hAj : (96 : Nat) ∉ (enc "json" ++ [10] ++ t ++ [10] : PyStr) := by
      intro hm
      rcases List.mem_append.mp hm with hm1 | hm2
      · rcases List.mem_append.mp hm1 with hm3 | hm4
        · rcases List.mem_append.mp hm3 with hm5 | hm6
          · exact absurd hm5 (by decide)
          · exact absurd hm6 (by decide)
        · exact hbt hm4
      · exact absurd hm2 (by decide)
    have hAp : (96 : Nat) ∉ ([10] ++ t ++ [10] : PyStr) := by
      intro hm
      rcases List.mem_append.mp hm with hm1 | hm2
      · rcases List.mem_append.mp hm1 with hm3 | hm4
        · exact absurd hm3 (by decide)
        · exact hbt hm4
      · exact absurd hm2 (by decide)
    refine ⟨?_, ?_, ?_⟩
    · have hfix : pystrip (wrapJson t) = wrapJson t := by
        rw [show wrapJson t = fence ++ (enc "json" ++ [10] ++ t ++ [10]) ++ fence
            from by simp [wrapJson]]
        exact pystrip_fence_wrap _
      show jsonLoads (cleanContent (pystrip (wrapJson t))) = some v
      rw [hfix, cleanContent_wrapJson t (no_backtick_split _ hAj), hst, hv]
    · have hfix : pystrip (wrapPlain t) = wrapPlain t := by
        rw [show wrapPlain t = fence ++ ([10] ++ t ++ [10]) ++ fence
            from by simp [wrapPlain]]
        exact pystrip_fence_wrap _
      show jsonLoads (cleanContent (pystrip (wrapPlain t))) = some v
      rw [hfix, cleanContent_wrapPlain t (no_backtick_split _ hAp), hst, hv]
    · show jsonLoads (cleanContent (pystrip t)) = some v
      rw [hst, cleanContent_no_backtick t hbt, hv]
  · intro raw h
    exact h

/-- C9 witness: the payload `[1, 2]` is backtick-free and stripped, and its
tagged-fence wrapping parses to the same array as the bare text. -/
theorem parse_fence_roundtrip_witness :
    jsonLoads (enc "[1, 2]") = some (.arr [.int 1, .int 2]) ∧
    (96 : Nat) ∉ enc "[1, 2]" ∧ pystrip (enc "[1, 2]") = enc "[1, 2]" ∧
    parseResponse (wrapJson (enc "[1, 2]")) = some (.arr [.int 1, .int 2]) := by
  have h := parse_fence_roundtrip.1 (enc "[1, 2]") (.arr [.int 1, .int 2])
    rfl (by decide) rfl
  exact ⟨rfl, by decide, rfl, h.1⟩

theorem bool_eq_false (b : Bool) (h : ¬ b = true) : b = false := by
  cases b
  · rfl
  · exact absurd rfl h

theorem pyToLower_idem (d : Nat) : pyToLower (pyToLower d) = pyToLower d := by
  by_cases h : 65 ≤ d ∧ d ≤ 90
  · have h1 : pyToLower d = d + 32 := by rw [pyToLower, if_pos h]
    rw [h1, pyToLower, if_neg (by omega)]
  · have h1 : pyToLower d = d := by rw [pyToLower, if_neg h]
    rw [h1, h1]

theorem mem_rstripWs (z : PyStr) (c : Nat) : c ∈ rstripWs z → c ∈ z := by
  induction z with
  | nil => intro h; exact absurd h (List.not_mem_nil c)
  | cons a r ih =>
    intro h
    simp only [rstripWs] at h
    by_cases hc : rstripWs r = [] ∧ pyWs a
    · rw [if_pos hc] at h
      exact absurd h (List.not_mem_nil c)
    · rw [if_neg hc] at h
      rcases List.mem_cons.mp h with h1 | h2
      · exact h1 ▸ List.mem_cons_self a r
      · exact List.mem_cons_of_mem a (ih h2)

theorem mem_lstripWs (z : PyStr) (c : Nat) : c ∈ lstripWs z → c ∈ z := by
  induction z with
  | nil => intro h; exact absurd h (List.not_mem_nil c)
  | cons a r ih =>
    intro h
    rw [lstripWs, List.dropWhile_cons] at h
    by_cases ha : pyWs a = true
    · rw [if_pos (by simp [ha])] at h
      exact List.mem_cons_of_mem a (ih h)
    · rw [if_neg (by simp [ha])] at h
      exact h

theorem mem_collapseGo : ∀ (w : PyStr) (b : Bool) (c : Nat),
    c ∈ collapseGo b w → c ∈ w ∨ c = 32 := by
  intro w
  induction w with
  | nil => intro b c h; exact absurd h (List.not_mem_nil c)
  | cons a r ih =>
    intro b c h
    simp only [collapseGo] at h
    by_cases ha : pyWs a = true
    · rw [if_pos ha] at h
      cases b with
      | true =>
        rw [if_pos rfl] at h
        rcases ih true c h with h1 | h2
        · exact Or.inl (List.mem_cons_of_mem a h1)
        · exact Or.inr h2
      | false =>
        rw [if_neg (by simp)] at h
        rcases List.mem_cons.mp h with h1 | h2
        · exact Or.inr h1
        · rcases ih true c h2 with h3 | h4
          · exact Or.inl (List.mem_cons_of_mem a h3)
          · exact Or.inr h4
    · rw [if_neg ha] at h
      rcases List.mem_cons.mp h with h1 | h2
      · exact Or.inl (h1 ▸ List.mem_cons_self a r)
      · rcases ih false c h2 with h3 | h4
        · exact Or.inl (List.mem_cons_of_mem a h3)
        · exact Or.inr h4

theorem map_self_of_fix (f : Nat → Nat) :
    ∀ l : PyStr, (∀ a ∈ l, f a = a) → l.map f = l := by
  intro l
  induction l with
  | nil => intro h; rfl
  | cons a r ih =>
    intro h
    rw [List.map_cons, h a (List.mem_cons_self a r),
      ih (fun x hx => h x (List.mem_cons_of_mem a hx))]

theorem filter_self_of (p : Nat → Bool) :
    ∀ l : PyStr, (∀ a ∈ l, p a = true) → l.filter p = l := by
  intro l
  induction l with
  | nil => intro h; rfl
  | cons a r ih =>
    intro h
    rw [List.filter_cons, if_pos (h a (List.mem_cons_self a r)),
      ih (fun x hx => h x (List.mem_cons_of_mem a hx))]

theorem wsNormal_collapseGo : ∀ (w : PyStr) (b : Bool),
    wsNormal b (collapseGo b w) = true := by
  intro w
  induction w with
  | nil => intro b; rfl
  | cons a r ih =>
    intro b
    simp only [collapseGo]
    by_cases ha : pyWs a = true
    · rw [if_pos ha]
      cases b with
      | true =>
        rw [if_pos rfl]
        exact ih true
      | false =>
        rw [if_neg (by simp)]
        simp only [wsNormal]
        rw [show pyWs 32 = true from rfl, if_pos rfl,
          show (!false && 32 == 32) = true from rfl, Bool.true_and]
        exact ih true
    · rw [if_neg ha]
      simp only [wsNormal]
      rw [bool_eq_false _ ha, if_neg (by simp), Bool.true_and]
      exact ih false

theorem wsNormal_weaken : ∀ z : PyStr,
    wsNormal true z = true → wsNormal false z = true := by
  intro z h
  cases z with
  | nil => rfl
  | cons a r =>
    simp only [wsNormal] at h ⊢
    by_cases ha : pyWs a = true
    · rw [if_pos ha, show (!true && a == 32) = false from by simp,
        Bool.false_and] at h
      exact absurd h (by simp)
    · rw [if_neg ha] at h ⊢
      exact h

theorem wsNormal_rstripWs : ∀ (z : PyStr) (b : Bool),
    wsNormal b z = true → wsNormal b (rstripWs z) = true := by
  intro z
  induction z with
  | nil => intro b h; exact h
  | cons a r ih =>
    intro b h
    simp only [wsNormal, Bool.and_eq_true] at h
    rcases h with ⟨h1, h2⟩
    simp only [rstripWs]
    by_cases hc : rstripWs r = [] ∧ pyWs a
    · rw [if_pos hc]
      rfl
    · rw [if_neg hc]
      simp only [wsNormal, Bool.and_eq_true]
      exact ⟨h1, ih (pyWs a) h2⟩

theorem wsNormal_lstripWs : ∀ z : PyStr,
    wsNormal false z = true → wsNormal false (lstripWs z) = true := by
  intro z
  induction z with
  | nil => intro h; exact h
  | cons a r ih =>
    intro h
    rw [lstripWs, List.dropWhile_cons]
    by_cases ha : pyWs a = true
    · rw [if_pos (by simp [ha])]
      simp only [wsNormal, Bool.and_eq_true] at h
      rcases h with ⟨h1, h2⟩
      rw [ha] at h2
      exact ih (wsNormal_weaken r h2)
    · rw [if_neg (by simp [ha])]
      exact h

theorem collapseGo_eq_self : ∀ (z : PyStr) (b : Bool),
    wsNormal b z = true → collapseGo b z = z := by
  intro z
  induction z with
  | nil => intro b h; rfl
  | cons a r ih =>
    intro b h
    simp only [wsNormal, Bool.and_eq_true] at h
    rcases h with ⟨h1, h2⟩
    simp only [collapseGo]
    by_cases ha : pyWs a = true
    · rw [if_pos ha]
      rw [if_pos ha] at h1
      simp only [Bool.and_eq_true] at h1
      rcases h1 with ⟨hb, ha32⟩
      have hb' : b = false := by
        cases b
        · rfl
        · simp at hb
      have ha32' : a = 32 := by simpa using ha32
      subst hb'
      rw [if_neg (by simp)]
      rw [ha] at h2
      rw [ih true h2, ha32']
    · rw [if_neg ha]
      rw [bool_eq_false _ ha] at h2
      rw [ih false h2]

theorem rstripWs_idem : ∀ z : PyStr, rstripWs (rstripWs z) = rstripWs z := by
  intro z
  induction z with
  | nil => rfl
  | cons a r ih =>
    simp only [rstripWs]
    by_cases hc : rstripWs r = [] ∧ pyWs a
    · rw [if_pos hc]
      rfl
    · rw [if_neg hc]
      simp only [rstripWs]
      rw [ih, if_neg hc]

theorem lstripWs_idem : ∀ z : PyStr, lstripWs (lstripWs z) = lstripWs z := by
  intro z
  induction z with
  | nil => rfl
  | cons a r ih =>
    by_cases ha : pyWs a = true
    · rw [lstripWs_cons_ws a r ha]
      exact ih
    · rw [lstripWs_cons_not_ws a r (bool_eq_false _ ha)]
      rw [lstripWs_cons_not_ws a r (bool_eq_false _ ha)]

theorem rstripWs_lstripWs : ∀ z : PyStr,
    rstripWs z = z → rstripWs (lstripWs z) = lstripWs z := by
  intro z
  induction z with
  | nil => intro h; rfl
  | cons a r ih =>
    intro h
    by_cases ha : pyWs a = true
    · rw [lstripWs_cons_ws a r ha]
      have hr : rstripWs r = r := by
        simp only [rstripWs] at h
        by_cases hc : rstripWs r = [] ∧ pyWs a
        · rw [if_pos hc] at h
          exact absurd h (by simp)
        · rw [if_neg hc] at h
          injection h with h1 h2
      exact ih hr
    · rw [lstripWs_cons_not_ws a r (bool_eq_false _ ha)]
      exact h

theorem pystrip_idem (z : PyStr) : pystrip (pystrip z) = pystrip z := by
  rw [pystrip, pystrip]
  rw [rstripWs_lstripWs (rstripWs z) (rstripWs_idem z)]
  exact lstripWs_idem (rstripWs z)

theorem normalize_chars (s : PyStr) :
    ∀ c ∈ normalize_string s, pyToLower c = c ∧ (wordc c || pyWs c) = true := by
  intro c hc
  have hc' : c ∈ collapseGo false (depunct (pystrip (s.map pyToLower))) := hc
  rcases mem_collapseGo (depunct (pystrip (s.map pyToLower))) false c hc' with hcw | hc32
  · have hfil := List.mem_filter.mp hcw
    rcases hfil with ⟨hcv, hp⟩
    have hcs := mem_rstripWs (s.map pyToLower) c
      (mem_lstripWs (rstripWs (s.map pyToLower)) c hcv)
    rcases List.mem_map.mp hcs with ⟨d, hdm, hd⟩
    exact ⟨hd ▸ pyToLower_idem d, hp⟩
  · subst hc32
    exact ⟨rfl, by decide⟩

theorem normalize_string_twice (s : PyStr) :
    normalize_string (normalize_string s) = pystrip (normalize_string s) := by
  have hchar := normalize_chars s
  have hmap : (normalize_string s).map pyToLower = normalize_string s :=
    map_self_of_fix pyToLower (normalize_string s) (fun a ha => (hchar a ha).1)
  have hdep : depunct (pystrip (normalize_string s)) = pystrip (normalize_string s) :=
    filter_self_of _ _ (fun a ha =>
      (hchar a (mem_rstripWs _ a (mem_lstripWs _ a ha))).2)
  have hok : wsNormal false (pystrip (normalize_string s)) = true := by
    have h0 : wsNormal false (normalize_string s) = true :=
      wsNormal_collapseGo (depunct (pystrip (s.map pyToLower))) false
    exact wsNormal_lstripWs _ (wsNormal_rstripWs _ false h0)
  show collapseWs (depunct (pystrip ((normalize_string s).map pyToLower)))
      = pystrip (normalize_string s)
  rw [hmap, hdep]
  exact collapseGo_eq_self _ false hok

/-- C3 counterexample: `"a ."` normalizes to `"a "` — the pipeline strips
first and only then deletes punctuation, so removing the trailing period
leaves a trailing space that is never re-stripped — hence a second
`normalize_string` gives `"a"` and idempotence fails; moreover the pair
`"a ."` / `"a "` differs only by that punctuation character (`depunct`
maps one to the other) yet normalizes to different outputs. -/
theorem normalize_not_idempotent_counterexample :
    normalize_string (enc "a .") = enc "a " ∧
    normalize_string (normalize_string (enc "a .")) = enc "a" ∧
    normalize_string (normalize_string (enc "a .")) ≠ normalize_string (enc "a .") ∧
    depunct (enc "a .") = enc "a " ∧
    normalize_string (enc "a ") ≠ normalize_string (enc "a .") := by
  refine ⟨by decide, by decide, by decide, by decide, by decide⟩

/-- C3 (amended): `normalize_string` is case-insensitive — inputs that
agree after character-wise lowercasing normalize identically — and although
it is not idempotent, a second application does exactly one extra thing:
it strips the edge whitespace that deleting boundary punctuation can leave
behind, so `normalize ∘ normalize = strip ∘ normalize` and a third
application changes nothing. -/
theorem normalize_case_insensitive_near_idempotent :
    (∀ s t : PyStr, s.map pyToLower = t.map pyToLower →
      normalize_string s = normalize_string t) ∧
    (∀ s : PyStr,
      normalize_string (normalize_string s) = pystrip (normalize_string s)) ∧
    (∀ s : PyStr,
      normalize_string (normalize_string (normalize_string s))
        = normalize_string (normalize_string s)) := by
  refine ⟨?_, normalize_string_twice, ?_⟩
  · intro s t h
    show collapseWs (depunct (pystrip (s.map pyToLower)))
        = collapseWs (depunct (pystrip (t.map pyToLower)))
    rw [h]
  · intro s
    rw [normalize_string_twice (normalize_string s), normalize_string_twice s,
      pystrip_idem]

/-- C3 witness: `"WICKED!"` and `"wicked!"` lowercase to the same string
and normalize identically. -/
theorem normalize_case_insensitive_witness :
    (enc "WICKED!").map pyToLower = (enc "wicked!").map pyToLower ∧
    normalize_string (enc "WICKED!") = normalize_string (enc "wicked!") :=
  ⟨by decide,
    normalize_case_insensitive_near_idempotent.1 (enc "WICKED!") (enc "wicked!")
      (by decide)⟩
